import Mathlib

/-!
# A proof-of-work hash chain

Shallow embedding of `src/block/block.go` (package `block`, difficulty 20) and
`src/htmldemo.go` (package `main`, difficulty 8).

* Go `[]byte` and `string` values are lists of bytes, a `[32]byte` array is a list of
  exactly 32 bytes.
* Go `int64` values are integers; the two places where the programs do arithmetic on
  them (`nonce++` and `prevBlock.Index+1`) wrap modulo `2^64` as Go does.
* `math/big` integers are natural numbers (only non-negative values occur).
* `sha256.Sum256` and `time.Now().Unix()` are library calls: the digest function is a
  parameter `sum256` of every definition that hashes, the clock reading a parameter
  `now` of `NewBlock`.
* The mining loop `for { ... }` has no bound; it is run with a step budget `fuel` and
  returns `none` when the budget is used up before a winning nonce is found.
-/

namespace PowChain

/-! ## Go values -/

/-- A Go byte slice (or string): a finite sequence of bytes. -/
abbrev Bytes := List (Fin 256)

/-- A Go `[32]byte` array. -/
abbrev Array32 := { bs : Bytes // bs.length = 32 }

/-- The type of `sha256.Sum256`: `func(data []byte) [32]byte`. -/
abbrev Sum256 := Bytes → Array32

/-- Membership in the range of Go's `int64`. -/
def isInt64 (v : Int) : Prop := -9223372036854775808 ≤ v ∧ v ≤ 9223372036854775807

instance (v : Int) : Decidable (isInt64 v) := by unfold isInt64; exact inferInstance

/-- The `int64` value an integer result is stored as: Go's signed arithmetic wraps
around modulo `2^64` (two's complement). -/
def wrapInt64 (v : Int) : Int :=
  (v + 9223372036854775808) % 18446744073709551616 - 9223372036854775808

/-- The conversion `byte(v)` of an unsigned integer: its low 8 bits. -/
def byte (v : Nat) : Fin 256 := ⟨v % 256, Nat.mod_lt v (by decide)⟩

/-- The bytes `binary.BigEndian.PutUint64` stores for `v`: most significant first. -/
def PutUint64 (v : Nat) : Bytes :=
  [byte (v >>> 56), byte (v >>> 48), byte (v >>> 40), byte (v >>> 32),
   byte (v >>> 24), byte (v >>> 16), byte (v >>> 8), byte v]

/-- The conversion `uint64(data)` of an `int64`: the residue modulo `2^64`. -/
def uint64 (data : Int) : Nat := (data % 18446744073709551616).toNat

/-- Source function `IntToHex` (identical in both files): `binary.Write` of an `int64` into a
fresh buffer with `binary.BigEndian`, which stores `uint64(data)` with `PutUint64`. -/
def IntToHex (data : Int) : Bytes := PutUint64 (uint64 data)

/-- Library function `bytes.Join(s, sep)`: the elements of `s` with `sep` between them. -/
def bytesJoin (s : List Bytes) (sep : Bytes) : Bytes := List.intercalate sep s

/-- Method `(*big.Int).SetBytes`: the bytes read as a big-endian unsigned integer. -/
def SetBytes (buf : Bytes) : Nat := buf.foldl (fun acc b => acc * 256 + b.val) 0

/-- Method `(*big.Int).Cmp`: `-1` if `x < y`, `0` if `x = y`, `+1` if `x > y`. -/
def Cmp (x y : Nat) : Int := if x < y then -1 else if x = y then 0 else 1

/-- Method `(*big.Int).Lsh`: `x << n`. -/
def Lsh (x : Nat) (n : Nat) : Nat := x <<< n

/-- The conversion `[]byte(s)` of a string literal: its UTF-8 bytes. -/
def stringBytes (s : String) : Bytes := s.toUTF8.data.toList.map UInt8.val

/-- How a call can fail to return normally. -/
inductive Fault where
  /-- Go run-time panic: slice index out of range. -/
  | indexOutOfRange
  /-- The mining loop was still running when the step budget ran out. -/
  | outOfFuel
  deriving DecidableEq, Repr

/-- A Go index expression `xs[i]` on a slice, with its run-time bounds check. -/
def index {α : Type} (xs : List α) (i : Int) : Except Fault α :=
  if i < 0 ∨ (xs.length : Int) ≤ i then Except.error Fault.indexOutOfRange
  else match xs[i.toNat]? with
    | some x => Except.ok x
    | none => Except.error Fault.indexOutOfRange

/-! ## Data model (the same declarations in both files) -/

/-- Source type `Block`. -/
structure Block where
  Index : Int
  TimeStamp : Int
  Data : Bytes
  PrevBlockHash : Bytes
  Hash : Bytes
  Nonce : Int
  deriving DecidableEq, Repr

/-- Source type `Blockchain`. The slice holds pointers in the source; no function embedded
here writes through a pointer that is already in a chain, so blocks are held by value. -/
structure Blockchain where
  blocks : List Block
  deriving DecidableEq, Repr

/-- Source type `ProofOfWork`. -/
structure ProofOfWork where
  block : Block
  target : Nat
  deriving DecidableEq, Repr

/-! ## `src/block/block.go` -/

namespace block

/-- Source constant `targetBit`. -/
def targetBit : Nat := 20

/-- Source function `NewProofOfWork`: the target is `1 << (256 - targetBit)`. -/
def NewProofOfWork (b : Block) : ProofOfWork :=
  { block := b, target := Lsh 1 (256 - targetBit) }

/-- Source function `prepareData`. -/
def prepareData (pow : ProofOfWork) (nonce : Int) : Bytes :=
  bytesJoin
    [pow.block.PrevBlockHash,
     pow.block.Data,
     IntToHex pow.block.Index,
     IntToHex pow.block.TimeStamp,
     IntToHex (targetBit : Int),
     IntToHex nonce]
    []

/-- The body of the `for` loop of source function `Run`, entered with the counter at
`nonce` and `fuel` iterations left: hash the prepared data, stop when
`pow.target.Cmp(&hashInt) == 1`, otherwise `nonce++` (an `int64` increment). -/
def RunLoop (sum256 : Sum256) (pow : ProofOfWork) : Nat → Int → Option (Int × Bytes)
  | 0, _ => none
  | fuel + 1, nonce =>
    let dataBytes := prepareData pow nonce
    let hash := sum256 dataBytes
    let hashInt := SetBytes hash.val
    if Cmp pow.target hashInt = 1 then some (nonce, hash.val)
    else RunLoop sum256 pow fuel (wrapInt64 (nonce + 1))

/-- Source function `Run`: the loop started at `nonce = 0`; returns the nonce and `hash[:]`. -/
def Run (sum256 : Sum256) (pow : ProofOfWork) (fuel : Nat) : Option (Int × Bytes) :=
  RunLoop sum256 pow fuel 0

/-- Source function `NewBlock`; `now` is the value of `time.Now().Unix()`. -/
def NewBlock (sum256 : Sum256) (now : Int) (fuel : Nat)
    (index : Int) (data prevBlockHash : Bytes) : Option Block :=
  let block : Block :=
    { Index := index, TimeStamp := now, Data := data, PrevBlockHash := prevBlockHash,
      Hash := [], Nonce := 0 }
  let pow := NewProofOfWork block
  match Run sum256 pow fuel with
  | none => none
  | some (nonce, hash) => some { block with Hash := hash, Nonce := nonce }

/-- Source function `NewGenesisBlock`. -/
def NewGenesisBlock (sum256 : Sum256) (now : Int) (fuel : Nat) : Option Block :=
  NewBlock sum256 now fuel 0 (stringBytes "first block") []

/-- Source function `NewBlockchain`. -/
def NewBlockchain (sum256 : Sum256) (now : Int) (fuel : Nat) : Option Blockchain :=
  match NewGenesisBlock sum256 now fuel with
  | none => none
  | some genesis => some { blocks := [genesis] }

/-- Source function `AddBlock`; the string `data` is given by its bytes, so `[]byte(data)`
is `data` itself, and `prevBlock.Index+1` is an `int64` addition. -/
def AddBlock (sum256 : Sum256) (now : Int) (fuel : Nat) (bc : Blockchain) (data : Bytes) :
    Except Fault Blockchain :=
  match index bc.blocks ((bc.blocks.length : Int) - 1) with
  | Except.error e => Except.error e
  | Except.ok prevBlock =>
    match NewBlock sum256 now fuel (wrapInt64 (prevBlock.Index + 1)) data prevBlock.Hash with
    | none => Except.error Fault.outOfFuel
    | some newBlock => Except.ok { blocks := bc.blocks ++ [newBlock] }

/-- Source function `Validate`. -/
def Validate (sum256 : Sum256) (pow : ProofOfWork) : Bool :=
  let data := prepareData pow pow.block.Nonce
  let hash := sum256 data
  let hashInt := SetBytes hash.val
  let isValid := decide (Cmp hashInt pow.target = -1)
  isValid

/-- The audit loop of source function `main`: for each block of the chain in order, whether
`NewProofOfWork(bc.blocks[i]).Validate()` holds (`false` is the "illegal block" branch). -/
def audit (sum256 : Sum256) (bc : Blockchain) : List Bool :=
  bc.blocks.map (fun b => Validate sum256 (NewProofOfWork b))

end block

/-! ## `src/htmldemo.go` -/

namespace htmldemo

/-- Source constant `targetBit`. -/
def targetBit : Nat := 8

/-- Source function `NewProofOfWork`: the target is `1 << (256 - targetBit)`. -/
def NewProofOfWork (b : Block) : ProofOfWork :=
  { block := b, target := Lsh 1 (256 - targetBit) }

/-- Source function `prepareData`: the block index is not part of the data. -/
def prepareData (pow : ProofOfWork) (nonce : Int) : Bytes :=
  bytesJoin
    [pow.block.PrevBlockHash,
     pow.block.Data,
     IntToHex pow.block.TimeStamp,
     IntToHex (targetBit : Int),
     IntToHex nonce]
    []

/-- The body of the `for` loop of source function `Run`, entered with the counter at
`nonce` and `fuel` iterations left: hash the prepared data, stop when
`pow.target.Cmp(&hashInt) == 1`, otherwise `nonce++` (an `int64` increment). -/
def RunLoop (sum256 : Sum256) (pow : ProofOfWork) : Nat → Int → Option (Int × Bytes)
  | 0, _ => none
  | fuel + 1, nonce =>
    let dataBytes := prepareData pow nonce
    let hash := sum256 dataBytes
    let hashInt := SetBytes hash.val
    if Cmp pow.target hashInt = 1 then some (nonce, hash.val)
    else RunLoop sum256 pow fuel (wrapInt64 (nonce + 1))

/-- Source function `Run`: the loop started at `nonce = 0`; returns the nonce and `hash[:]`. -/
def Run (sum256 : Sum256) (pow : ProofOfWork) (fuel : Nat) : Option (Int × Bytes) :=
  RunLoop sum256 pow fuel 0

/-- Source function `NewBlock`; `now` is the value of `time.Now().Unix()`. -/
def NewBlock (sum256 : Sum256) (now : Int) (fuel : Nat)
    (index : Int) (data prevBlockHash : Bytes) : Option Block :=
  let block : Block :=
    { Index := index, TimeStamp := now, Data := data, PrevBlockHash := prevBlockHash,
      Hash := [], Nonce := 0 }
  let pow := NewProofOfWork block
  match Run sum256 pow fuel with
  | none => none
  | some (nonce, hash) => some { block with Hash := hash, Nonce := nonce }

/-- Source function `NewGenesisBlock`. -/
def NewGenesisBlock (sum256 : Sum256) (now : Int) (fuel : Nat) : Option Block :=
  NewBlock sum256 now fuel 0 (stringBytes "first block") []

/-- Source function `NewBlockchain`. -/
def NewBlockchain (sum256 : Sum256) (now : Int) (fuel : Nat) : Option Blockchain :=
  match NewGenesisBlock sum256 now fuel with
  | none => none
  | some genesis => some { blocks := [genesis] }

/-- Source function `AddBlock`; the string `data` is given by its bytes, so `[]byte(data)`
is `data` itself, and `prevBlock.Index+1` is an `int64` addition. -/
def AddBlock (sum256 : Sum256) (now : Int) (fuel : Nat) (bc : Blockchain) (data : Bytes) :
    Except Fault Blockchain :=
  match index bc.blocks ((bc.blocks.length : Int) - 1) with
  | Except.error e => Except.error e
  | Except.ok prevBlock =>
    match NewBlock sum256 now fuel (wrapInt64 (prevBlock.Index + 1)) data prevBlock.Hash with
    | none => Except.error Fault.outOfFuel
    | some newBlock => Except.ok { blocks := bc.blocks ++ [newBlock] }

/-- Source function `setHash`: reset the nonce, mine, store the hash and the nonce. The
receiver is a pointer; the block after the call is returned. -/
def setHash (sum256 : Sum256) (fuel : Nat) (b : Block) : Option Block :=
  let b0 : Block := { b with Nonce := 0 }
  let pow := NewProofOfWork b0
  match Run sum256 pow fuel with
  | none => none
  | some (nonce, hash) => some { b0 with Hash := hash, Nonce := nonce }

end htmldemo

/-! ## Runs of the programs -/

/-- One `AddBlock` call of a run: its payload, the clock reading inside `NewBlock` and the
step budget of its mining loop. -/
structure Call where
  data : Bytes
  now : Int
  fuel : Nat
  deriving DecidableEq, Repr

/-- A finite sequence of `AddBlock` calls of `block.go`, made one after the other. -/
def block.addBlocks (sum256 : Sum256) (bc : Blockchain) : List Call → Except Fault Blockchain
  | [] => Except.ok bc
  | c :: cs =>
    match block.AddBlock sum256 c.now c.fuel bc c.data with
    | Except.error e => Except.error e
    | Except.ok bc1 => block.addBlocks sum256 bc1 cs

/-- A chain of `block.go` built as `main` does: `NewBlockchain()`, then `AddBlock` calls. -/
def block.build (sum256 : Sum256) (now : Int) (fuel : Nat) (calls : List Call) :
    Except Fault Blockchain :=
  match block.NewBlockchain sum256 now fuel with
  | none => Except.error Fault.outOfFuel
  | some bc => block.addBlocks sum256 bc calls

/-- Chain linkage: every block after the first carries the hash of the block before it. -/
def Linked (bc : Blockchain) : Prop :=
  ∀ (i : Nat) (_ : 0 < i) (h : i < bc.blocks.length),
    (bc.blocks[i]).PrevBlockHash = (bc.blocks[i - 1]).Hash

/-- The digest of the data `block.go` prepares with nonce `n` is strictly below the target:
`n` is a winning nonce of the block of `pow`. -/
def block.wins (sum256 : Sum256) (pow : ProofOfWork) (n : Int) : Prop :=
  SetBytes (sum256 (block.prepareData pow n)).val < pow.target

instance (sum256 : Sum256) (pow : ProofOfWork) (n : Int) :
    Decidable (block.wins sum256 pow n) := by
  unfold block.wins; exact inferInstance

/-- A digest function that returns the bytes of `2^236`, the target of `block.go`, for
every input. -/
def targetSum256 : Sum256 := fun _ =>
  ⟨0 :: 0 :: 16 :: List.replicate 29 0, by simp⟩

/-- A digest function to run the definitions with: the digest starts with three zero bytes
exactly when the last 8 bytes of the data, read as a big-endian number, are `mark`; every
other digest is `ff..ff`. Mining with it ends at the nonce whose encoding is `mark`. -/
def markSum256 (mark : Nat) : Sum256 := fun data =>
  if SetBytes (data.drop (data.length - 8)) = mark then
    ⟨0 :: 0 :: 0 :: List.replicate 29 (byte data.length), by simp⟩
  else ⟨List.replicate 32 255, by simp⟩

/-! ## Integer encoding, with its error branch -/

/-- The data handed to `binary.Write`, by its Go type. An `int64` has the fixed size of 8
bytes; an `int` has a size that depends on the platform, and `binary.Write` returns an
error for it. -/
inductive WriteData where
  | int64 (v : Int)
  | int (v : Int)
  deriving DecidableEq, Repr

/-- Library function `binary.Write(buffer, binary.BigEndian, data)` on a fresh
`bytes.Buffer`: the content of the buffer when the returned error is `nil`, `none` when an
error is returned. -/
def binaryWrite (data : WriteData) : Option Bytes :=
  match data with
  | WriteData.int64 v => some (PutUint64 (uint64 v))
  | WriteData.int _ => none

/-- Source function `IntToHex` with its error test: `none` is the `log.Panicf` branch,
`some` the returned `buffer.Bytes()`. The argument has the Go type `int64`. -/
def IntToHexChecked (data : Int) : Option Bytes :=
  match binaryWrite (WriteData.int64 data) with
  | none => none
  | some buffer => some buffer

/-- The `int64` that 8 bytes encode: `int64(binary.BigEndian.Uint64(bs))`. -/
def Int64FromHex (bs : Bytes) : Int := wrapInt64 (SetBytes bs)

/-- The fields of Go type `int64` of a block hold `int64` values. -/
def Block.WellTyped (b : Block) : Prop :=
  isInt64 b.Index ∧ isInt64 b.TimeStamp ∧ isInt64 b.Nonce

instance (b : Block) : Decidable b.WellTyped := by
  unfold Block.WellTyped; exact inferInstance

/-! ## Digest bits -/

/-- The byte `d[i]` of a byte slice as a number (for `i` within the slice). -/
def byteAt (d : Bytes) (i : Nat) : Nat := (d.getD i 0).val

/-- Bit `i` of a byte slice, counted from the most significant bit of the first byte. -/
def digestBit (d : Bytes) (i : Nat) : Nat := (byteAt d (i / 8) >>> (7 - i % 8)) % 2

/-! ## Sample inputs -/

/-- A one-block chain whose block has the largest `int64` as its index. -/
def maxIndexChain : Blockchain :=
  { blocks := [{ Index := 9223372036854775807, TimeStamp := 0, Data := [], PrevBlockHash := [],
                 Hash := [9], Nonce := 0 }] }

/-- The three calls `AddBlock("A")`, `AddBlock("B")`, `AddBlock("C")`, at clock readings
101, 102, 103, each with a budget of 10 iterations. -/
def sampleCalls : List Call :=
  [{ data := [65], now := 101, fuel := 10 }, { data := [66], now := 102, fuel := 10 },
   { data := [67], now := 103, fuel := 10 }]

/-- The genesis block mined at clock reading 100 with the digest function `markSum256 3`. -/
def sampleGenesis : Block :=
  { Index := 0, TimeStamp := 100,
    Data := [102, 105, 114, 115, 116, 32, 98, 108, 111, 99, 107], PrevBlockHash := [],
    Hash := 0 :: 0 :: 0 :: List.replicate 29 43, Nonce := 3 }

/-- The block of `AddBlock("A")` after `sampleGenesis`. -/
def sampleA : Block :=
  { Index := 1, TimeStamp := 101, Data := [65],
    PrevBlockHash := 0 :: 0 :: 0 :: List.replicate 29 43,
    Hash := 0 :: 0 :: 0 :: List.replicate 29 65, Nonce := 3 }

/-- The block of `AddBlock("B")` after `sampleA`. -/
def sampleB : Block :=
  { Index := 2, TimeStamp := 102, Data := [66],
    PrevBlockHash := 0 :: 0 :: 0 :: List.replicate 29 65,
    Hash := 0 :: 0 :: 0 :: List.replicate 29 65, Nonce := 3 }

/-- The block of `AddBlock("C")` after `sampleB`. -/
def sampleC : Block :=
  { Index := 3, TimeStamp := 103, Data := [67],
    PrevBlockHash := 0 :: 0 :: 0 :: List.replicate 29 65,
    Hash := 0 :: 0 :: 0 :: List.replicate 29 65, Nonce := 3 }

/-- The block the `AddBlock("B")` of `htmldemo.go` makes after `sampleA`. -/
def sampleBDemo : Block :=
  { Index := 2, TimeStamp := 102, Data := [66],
    PrevBlockHash := 0 :: 0 :: 0 :: List.replicate 29 65,
    Hash := 0 :: 0 :: 0 :: List.replicate 29 57, Nonce := 3 }

/-- A block with an empty `PrevBlockHash` and the payload `01 02`. -/
def joinBlockA : Block :=
  { Index := 1, TimeStamp := 5, Data := [1, 2], PrevBlockHash := [], Hash := [], Nonce := 0 }

/-- The block `joinBlockA` with the first payload byte moved to the end of
`PrevBlockHash`. -/
def joinBlockB : Block :=
  { Index := 1, TimeStamp := 5, Data := [2], PrevBlockHash := [1], Hash := [], Nonce := 0 }

/-- A block that has not been mined yet. -/
def sampleBlock : Block :=
  { Index := 7, TimeStamp := 1700000000, Data := [104, 105], PrevBlockHash := [1, 2, 3],
    Hash := [], Nonce := 0 }

/-- The block `sampleBlock` as `block.go` seals it with the digest function `markSum256 3`. -/
def sampleSealed : Block :=
  { sampleBlock with Hash := 0 :: 0 :: 0 :: List.replicate 29 37, Nonce := 3 }

/-- The block `sampleBlock` as `htmldemo.go` seals it with the digest function
`markSum256 3`. -/
def sampleSealedDemo : Block :=
  { sampleBlock with Hash := 0 :: 0 :: 0 :: List.replicate 29 29, Nonce := 3 }

/-! ## Basic facts about the library models -/

theorem Cmp_eq_one_iff (x y : Nat) : Cmp x y = 1 ↔ y < x := by
  unfold Cmp
  split_ifs <;> constructor <;> intro h <;> first | omega | (exfalso; revert h; decide)

theorem Cmp_eq_neg_one_iff (x y : Nat) : Cmp x y = -1 ↔ x < y := by
  unfold Cmp
  split_ifs <;> constructor <;> intro h <;> first | omega | (exfalso; revert h; decide)

theorem bytesJoin_nil_sep (s : List Bytes) : bytesJoin s [] = s.flatten := by
  unfold bytesJoin List.intercalate
  induction s with
  | nil => rfl
  | cons a t ih =>
    cases t with
    | nil => simp [List.intersperse]
    | cons b t =>
      simp only [List.intersperse, List.flatten_cons, List.nil_append] at ih ⊢
      rw [ih]

theorem IntToHex_length (v : Int) : (IntToHex v).length = 8 := rfl

theorem block_target (b : Block) :
    (block.NewProofOfWork b).target = 2 ^ 236 := by
  simp [block.NewProofOfWork, block.targetBit, Lsh, Nat.shiftLeft_eq]

theorem htmldemo_target (b : Block) :
    (htmldemo.NewProofOfWork b).target = 2 ^ 248 := by
  simp [htmldemo.NewProofOfWork, htmldemo.targetBit, Lsh, Nat.shiftLeft_eq]

theorem block_prepareData_eq (pow : ProofOfWork) (nonce : Int) :
    block.prepareData pow nonce =
      pow.block.PrevBlockHash ++ pow.block.Data ++ IntToHex pow.block.Index ++
        IntToHex pow.block.TimeStamp ++ IntToHex 20 ++ IntToHex nonce := by
  simp [block.prepareData, bytesJoin_nil_sep, block.targetBit]

theorem htmldemo_prepareData_eq (pow : ProofOfWork) (nonce : Int) :
    htmldemo.prepareData pow nonce =
      pow.block.PrevBlockHash ++ pow.block.Data ++
        IntToHex pow.block.TimeStamp ++ IntToHex 8 ++ IntToHex nonce := by
  simp [htmldemo.prepareData, bytesJoin_nil_sep, htmldemo.targetBit]

theorem SetBytes_append_singleton (l : Bytes) (x : Fin 256) :
    SetBytes (l ++ [x]) = SetBytes l * 256 + x.val := by
  simp [SetBytes, List.foldl_append]

theorem SetBytes_lt (l : Bytes) : SetBytes l < 256 ^ l.length := by
  induction l using List.reverseRecOn with
  | nil => simp [SetBytes]
  | append_singleton l x ih =>
    rw [SetBytes_append_singleton, List.length_append, List.length_singleton, pow_succ]
    have hx := x.isLt
    omega

theorem SetBytes_zero_cons (l : Bytes) : SetBytes (0 :: l) = SetBytes l := by
  simp [SetBytes]

theorem SetBytes_PutUint64 (v : Nat) : SetBytes (PutUint64 v) = v % 18446744073709551616 := by
  simp only [SetBytes, PutUint64, byte, List.foldl_cons, List.foldl_nil,
    Nat.shiftRight_eq_div_pow]
  omega

theorem uint64_lt (v : Int) : uint64 v < 18446744073709551616 := by
  unfold uint64; omega

theorem SetBytes_IntToHex (v : Int) : SetBytes (IntToHex v) = uint64 v := by
  rw [IntToHex, SetBytes_PutUint64]
  exact Nat.mod_eq_of_lt (uint64_lt v)

theorem block_prepareData_tail (pow : ProofOfWork) (n : Int) :
    (block.prepareData pow n).drop ((block.prepareData pow n).length - 8) = IntToHex n := by
  rw [block_prepareData_eq]
  have : (pow.block.PrevBlockHash ++ pow.block.Data ++ IntToHex pow.block.Index ++
        IntToHex pow.block.TimeStamp ++ IntToHex 20 ++ IntToHex n).length - 8 =
      (pow.block.PrevBlockHash ++ pow.block.Data ++ IntToHex pow.block.Index ++
        IntToHex pow.block.TimeStamp ++ IntToHex 20).length := by
    simp only [List.length_append, IntToHex_length]
    omega
  rw [this, List.drop_left]

/-! ## Wrap-around of `int64` -/

theorem wrapInt64_isInt64 (v : Int) : isInt64 (wrapInt64 v) := by
  unfold isInt64 wrapInt64; omega

theorem wrapInt64_of_isInt64 (v : Int) (h : isInt64 v) : wrapInt64 v = v := by
  unfold isInt64 at h; unfold wrapInt64; omega

theorem wrapInt64_add_wrap (a b : Int) : wrapInt64 (wrapInt64 a + b) = wrapInt64 (a + b) := by
  unfold wrapInt64; omega

theorem wrapInt64_uint64 (v : Int) (h : isInt64 v) : wrapInt64 (uint64 v : Int) = v := by
  unfold isInt64 at h; unfold uint64 wrapInt64; omega

/-! ## The mining loop -/

theorem block_RunLoop_succ (sum256 : Sum256) (pow : ProofOfWork) (fuel : Nat) (nonce : Int) :
    block.RunLoop sum256 pow (fuel + 1) nonce =
      if block.wins sum256 pow nonce then
        some (nonce, (sum256 (block.prepareData pow nonce)).val)
      else block.RunLoop sum256 pow fuel (wrapInt64 (nonce + 1)) := by
  simp only [block.RunLoop, block.wins, Cmp_eq_one_iff]

/-- The loop passes over nonces that do not win. -/
theorem block_RunLoop_skip (sum256 : Sum256) (pow : ProofOfWork) (fuel : Nat) (k : Nat) :
    ∀ start : Int, isInt64 start →
      (∀ j : Nat, j < k → ¬ block.wins sum256 pow (wrapInt64 (start + j))) →
        block.RunLoop sum256 pow (k + fuel) start =
          block.RunLoop sum256 pow fuel (wrapInt64 (start + k)) := by
  induction k with
  | zero => intro start hs _; simp [wrapInt64_of_isInt64 _ hs]
  | succ k ih =>
    intro start hs hlose
    have h0 : ¬ block.wins sum256 pow start := by
      simpa [wrapInt64_of_isInt64 _ hs] using hlose 0 (Nat.succ_pos _)
    have e : k + 1 + fuel = (k + fuel) + 1 := by omega
    rw [e, block_RunLoop_succ, if_neg h0, ih _ (wrapInt64_isInt64 _)]
    · rw [wrapInt64_add_wrap]; congr 2; push_cast; ring
    · intro j hj
      have := hlose (j + 1) (by omega)
      rw [wrapInt64_add_wrap]
      have e2 : start + ((j + 1 : Nat) : Int) = start + 1 + (j : Int) := by push_cast; ring
      rw [e2] at this; exact this

theorem block_RunLoop_sound (sum256 : Sum256) (pow : ProofOfWork) (fuel : Nat) :
    ∀ (start nonce : Int) (hash : Bytes),
      block.RunLoop sum256 pow fuel start = some (nonce, hash) →
        hash = (sum256 (block.prepareData pow nonce)).val ∧ SetBytes hash < pow.target := by
  induction fuel with
  | zero => intro start nonce hash h; simp [block.RunLoop] at h
  | succ fuel ih =>
    intro start nonce hash h
    simp only [block.RunLoop] at h
    split_ifs at h with hc
    · simp only [Option.some.injEq, Prod.mk.injEq] at h
      obtain ⟨h1, h2⟩ := h
      subst h1
      subst h2
      exact ⟨rfl, (Cmp_eq_one_iff _ _).mp hc⟩
    · exact ih _ _ _ h

theorem htmldemo_RunLoop_sound (sum256 : Sum256) (pow : ProofOfWork) (fuel : Nat) :
    ∀ (start nonce : Int) (hash : Bytes),
      htmldemo.RunLoop sum256 pow fuel start = some (nonce, hash) →
        hash = (sum256 (htmldemo.prepareData pow nonce)).val ∧ SetBytes hash < pow.target := by
  induction fuel with
  | zero => intro start nonce hash h; simp [htmldemo.RunLoop] at h
  | succ fuel ih =>
    intro start nonce hash h
    simp only [htmldemo.RunLoop] at h
    split_ifs at h with hc
    · simp only [Option.some.injEq, Prod.mk.injEq] at h
      obtain ⟨h1, h2⟩ := h
      subst h1
      subst h2
      exact ⟨rfl, (Cmp_eq_one_iff _ _).mp hc⟩
    · exact ih _ _ _ h

/-! ## Claims on mining and validation -/

/-- C1: whenever `Run` on a block returns `(nonce, hash)`, the block with that nonce and
hash stored passes validation. For `block.go` (difficulty 20) this is `Validate` returning
`true`; `htmldemo.go` (difficulty 8) declares no `Validate`, there the digest recomputed from
the sealed block passes the test of `Validate`, `hashInt.Cmp(target) == -1`, against the target
of `htmldemo.go`. The stop test of `Run`, `target.Cmp(hashInt) == 1`, and the test of
`Validate` accept the same digests. -/
theorem run_result_validates (sum256 : Sum256) (b : Block) (fuel : Nat) (nonce : Int)
    (hash : Bytes) :
    (block.Run sum256 (block.NewProofOfWork b) fuel = some (nonce, hash) →
      block.Validate sum256
        (block.NewProofOfWork { b with Hash := hash, Nonce := nonce }) = true) ∧
    (htmldemo.Run sum256 (htmldemo.NewProofOfWork b) fuel = some (nonce, hash) →
      Cmp (SetBytes (sum256 (htmldemo.prepareData
              (htmldemo.NewProofOfWork { b with Hash := hash, Nonce := nonce }) nonce)).val)
          (htmldemo.NewProofOfWork { b with Hash := hash, Nonce := nonce }).target = -1) ∧
    (∀ target hashInt : Nat, Cmp target hashInt = 1 ↔ Cmp hashInt target = -1) := by
  refine ⟨?_, ?_, ?_⟩
  · intro h
    obtain ⟨h1, h2⟩ := block_RunLoop_sound sum256 _ fuel 0 nonce hash h
    subst h1
    simp only [block.Validate, decide_eq_true_eq]
    exact (Cmp_eq_neg_one_iff _ _).mpr h2
  · intro h
    obtain ⟨h1, h2⟩ := htmldemo_RunLoop_sound sum256 _ fuel 0 nonce hash h
    subst h1
    exact (Cmp_eq_neg_one_iff _ _).mpr h2
  · intro target hashInt
    rw [Cmp_eq_one_iff, Cmp_eq_neg_one_iff]

/-- C1, on a run: with the digest function `markSum256 3` both programs mine `sampleBlock`
in four iterations, and the sealed block passes. -/
theorem run_result_validates_witness :
    block.Run (markSum256 3) (block.NewProofOfWork sampleBlock) 10
        = some (3, 0 :: 0 :: 0 :: List.replicate 29 37) ∧
    block.Validate (markSum256 3)
        (block.NewProofOfWork
          { sampleBlock with Hash := 0 :: 0 :: 0 :: List.replicate 29 37, Nonce := 3 }) = true ∧
    htmldemo.Run (markSum256 3) (htmldemo.NewProofOfWork sampleBlock) 10
        = some (3, 0 :: 0 :: 0 :: List.replicate 29 29) ∧
    Cmp (SetBytes (markSum256 3 (htmldemo.prepareData
            (htmldemo.NewProofOfWork
              { sampleBlock with Hash := 0 :: 0 :: 0 :: List.replicate 29 29, Nonce := 3 })
            3)).val)
        (htmldemo.NewProofOfWork
          { sampleBlock with Hash := 0 :: 0 :: 0 :: List.replicate 29 29, Nonce := 3 }).target
      = -1 :=
  ⟨by decide,
   (run_result_validates (markSum256 3) sampleBlock 10 3
      (0 :: 0 :: 0 :: List.replicate 29 37)).1 (by decide),
   by decide,
   (run_result_validates (markSum256 3) sampleBlock 10 3
      (0 :: 0 :: 0 :: List.replicate 29 29)).2.1 (by decide)⟩

/-- C2: the block returned by `NewBlock` (of either file), and the block left by the
`setHash` of `htmldemo.go`, carries as `Hash` the 32 bytes `Sum256(prepareData(B.Nonce))`
computed from its own fields. -/
theorem hash_is_digest_of_own_fields (sum256 : Sum256) (now : Int) (fuel : Nat) (index : Int)
    (data prevBlockHash : Bytes) (b B : Block) :
    (block.NewBlock sum256 now fuel index data prevBlockHash = some B →
      B.Hash = (sum256 (block.prepareData (block.NewProofOfWork B) B.Nonce)).val ∧
      B.Hash.length = 32) ∧
    (htmldemo.NewBlock sum256 now fuel index data prevBlockHash = some B →
      B.Hash = (sum256 (htmldemo.prepareData (htmldemo.NewProofOfWork B) B.Nonce)).val ∧
      B.Hash.length = 32) ∧
    (htmldemo.setHash sum256 fuel b = some B →
      B.Hash = (sum256 (htmldemo.prepareData (htmldemo.NewProofOfWork B) B.Nonce)).val ∧
      B.Hash.length = 32) := by
  refine ⟨?_, ?_, ?_⟩
  · intro h
    simp only [block.NewBlock, block.Run] at h
    split at h
    · simp at h
    · rename_i nonce hash hrun
      obtain ⟨h1, -⟩ := block_RunLoop_sound sum256 _ fuel 0 nonce hash hrun
      simp only [Option.some.injEq] at h
      subst h
      exact ⟨h1, by rw [h1]; exact (sum256 _).property⟩
  · intro h
    simp only [htmldemo.NewBlock, htmldemo.Run] at h
    split at h
    · simp at h
    · rename_i nonce hash hrun
      obtain ⟨h1, -⟩ := htmldemo_RunLoop_sound sum256 _ fuel 0 nonce hash hrun
      simp only [Option.some.injEq] at h
      subst h
      exact ⟨h1, by rw [h1]; exact (sum256 _).property⟩
  · intro h
    simp only [htmldemo.setHash, htmldemo.Run] at h
    split at h
    · simp at h
    · rename_i nonce hash hrun
      obtain ⟨h1, -⟩ := htmldemo_RunLoop_sound sum256 _ fuel 0 nonce hash hrun
      simp only [Option.some.injEq] at h
      subst h
      exact ⟨h1, by rw [h1]; exact (sum256 _).property⟩

/-- C2, on a run: sealing `sampleBlock` with the digest function `markSum256 3`. -/
theorem hash_is_digest_of_own_fields_witness :
    block.NewBlock (markSum256 3) 1700000000 10 7 [104, 105] [1, 2, 3] = some sampleSealed ∧
    (sampleSealed.Hash =
        (markSum256 3 (block.prepareData (block.NewProofOfWork sampleSealed)
          sampleSealed.Nonce)).val ∧
      sampleSealed.Hash.length = 32) ∧
    htmldemo.setHash (markSum256 3) 10 sampleSealed = some sampleSealedDemo ∧
    (sampleSealedDemo.Hash =
        (markSum256 3 (htmldemo.prepareData (htmldemo.NewProofOfWork sampleSealedDemo)
          sampleSealedDemo.Nonce)).val ∧
      sampleSealedDemo.Hash.length = 32) :=
  ⟨by decide,
   (hash_is_digest_of_own_fields (markSum256 3) 1700000000 10 7 [104, 105] [1, 2, 3]
      sampleSealed sampleSealed).1 (by decide),
   by decide,
   (hash_is_digest_of_own_fields (markSum256 3) 1700000000 10 7 [104, 105] [1, 2, 3]
      sampleSealed sampleSealedDemo).2.2 (by decide)⟩

/-- C4: `Validate` returns `true` exactly when `Sum256(prepareData(b.Nonce))`, read as a
big-endian unsigned integer, is strictly below `2^(256 - targetBit)`; the target built by
`NewProofOfWork` is `2^236` in `block.go` and `2^248` in `htmldemo.go`; a digest equal to
the target is rejected. -/
theorem validate_iff_below_target (sum256 : Sum256) (b : Block) :
    (block.Validate sum256 (block.NewProofOfWork b) = true ↔
      SetBytes (sum256 (block.prepareData (block.NewProofOfWork b) b.Nonce)).val
        < 2 ^ (256 - block.targetBit)) ∧
    (block.NewProofOfWork b).target = 2 ^ 236 ∧
    (htmldemo.NewProofOfWork b).target = 2 ^ (256 - htmldemo.targetBit) ∧
    (htmldemo.NewProofOfWork b).target = 2 ^ 248 ∧
    (SetBytes (sum256 (block.prepareData (block.NewProofOfWork b) b.Nonce)).val
        = (block.NewProofOfWork b).target →
      block.Validate sum256 (block.NewProofOfWork b) = false) := by
  have ht := block_target b
  have hb : (block.NewProofOfWork b).block = b := rfl
  refine ⟨?_, ht, ?_, htmldemo_target b, ?_⟩
  · simp only [block.Validate, decide_eq_true_eq, Cmp_eq_neg_one_iff, ht, hb]
    simp [block.targetBit]
  · rw [htmldemo_target]; simp [htmldemo.targetBit]
  · intro h
    simp only [block.Validate, decide_eq_false_iff_not, Cmp_eq_neg_one_iff, hb]
    omega

/-- C4, at the boundary: a digest equal to the target `2^236` is rejected. -/
theorem validate_iff_below_target_witness :
    SetBytes (targetSum256
        (block.prepareData (block.NewProofOfWork sampleBlock) sampleBlock.Nonce)).val
      = (block.NewProofOfWork sampleBlock).target ∧
    block.Validate targetSum256 (block.NewProofOfWork sampleBlock) = false :=
  ⟨by decide, (validate_iff_below_target targetSum256 sampleBlock).2.2.2.2 (by decide)⟩

/-- C10: `prepareData(n)` of `block.go` is the concatenation, without delimiter and in this
order, of `PrevBlockHash`, `Data`, `IntToHex(Index)`, `IntToHex(TimeStamp)`, `IntToHex(20)`
and `IntToHex(n)`; its length is `len(PrevBlockHash) + len(Data) + 32` and its last 8 bytes
are `IntToHex(n)`. -/
theorem prepareData_layout (b : Block) (n : Int) :
    block.prepareData (block.NewProofOfWork b) n =
      b.PrevBlockHash ++ b.Data ++ IntToHex b.Index ++ IntToHex b.TimeStamp ++
        IntToHex 20 ++ IntToHex n ∧
    (block.prepareData (block.NewProofOfWork b) n).length =
      b.PrevBlockHash.length + b.Data.length + 32 ∧
    (block.prepareData (block.NewProofOfWork b) n).drop
      ((block.prepareData (block.NewProofOfWork b) n).length - 8) = IntToHex n := by
  have h := block_prepareData_eq (block.NewProofOfWork b) n
  have hb : (block.NewProofOfWork b).block = b := rfl
  rw [hb] at h
  have hlen : (block.prepareData (block.NewProofOfWork b) n).length =
      b.PrevBlockHash.length + b.Data.length + 32 := by
    rw [h]; simp only [List.length_append, IntToHex_length]
  refine ⟨h, hlen, ?_⟩
  rw [hlen, h]
  have : b.PrevBlockHash.length + b.Data.length + 32 - 8 =
      (b.PrevBlockHash ++ b.Data ++ IntToHex b.Index ++ IntToHex b.TimeStamp ++
        IntToHex 20).length := by
    simp only [List.length_append, IntToHex_length]
    omega
  rw [this, List.drop_left]

/-! ## The first winning nonce -/

/-- Total correctness of the search: when some `int64` nonce wins, `Run` returns within
`2^64` iterations. -/
theorem block_Run_terminates (sum256 : Sum256) (pow : ProofOfWork) (n : Int)
    (hn : isInt64 n) (hw : block.wins sum256 pow n) :
    ∃ nonce hash, block.Run sum256 pow 18446744073709551616 = some (nonce, hash) := by
  classical
  have hex : ∃ k : Nat, block.wins sum256 pow (wrapInt64 (k : Int)) :=
    ⟨uint64 n, by rw [wrapInt64_uint64 n hn]; exact hw⟩
  have hmin : ∀ j : Nat, j < Nat.find hex → ¬ block.wins sum256 pow (wrapInt64 (0 + (j : Int))) := by
    intro j hj
    rw [zero_add]
    exact Nat.find_min hex hj
  have hle : Nat.find hex ≤ uint64 n :=
    Nat.find_min' hex (by rw [wrapInt64_uint64 n hn]; exact hw)
  have hlt := uint64_lt n
  obtain ⟨fuel, hfuel⟩ : ∃ fuel : Nat, 18446744073709551616 = Nat.find hex + (fuel + 1) :=
    ⟨18446744073709551616 - Nat.find hex - 1, by omega⟩
  have hskip := block_RunLoop_skip sum256 pow (fuel + 1) (Nat.find hex) 0 (by decide) hmin
  refine ⟨wrapInt64 (0 + (Nat.find hex : Int)),
    (sum256 (block.prepareData pow (wrapInt64 (0 + (Nat.find hex : Int))))).val, ?_⟩
  unfold block.Run
  rw [hfuel, hskip, block_RunLoop_succ, if_pos]
  rw [zero_add]
  exact Nat.find_spec hex

theorem index_last {α : Type} (xs : List α) (x : α)
    (h : index xs ((xs.length : Int) - 1) = Except.ok x) :
    ∃ init, xs = init ++ [x] := by
  unfold index at h
  split_ifs at h with hc
  have e : ((xs.length : Int) - 1).toNat = xs.length - 1 := by omega
  rw [e] at h
  split at h
  · rename_i y hy
    simp only [Except.ok.injEq] at h
    subst h
    have hne : xs ≠ [] := by
      intro h0; subst h0; simp at hy
    refine ⟨xs.dropLast, ?_⟩
    have hl : xs.getLast hne = y := by
      rw [List.getLast_eq_getElem]
      rw [List.getElem?_eq_some_iff] at hy
      obtain ⟨_, hy⟩ := hy
      exact hy
    rw [← hl, List.dropLast_append_getLast]
  · simp at h

theorem index_last_append {α : Type} (init : List α) (x : α) :
    index (init ++ [x]) (((init ++ [x]).length : Int) - 1) = Except.ok x := by
  unfold index
  have e : (((init ++ [x]).length : Int) - 1).toNat = init.length := by
    simp
  rw [e]
  have hc : ¬ ((((init ++ [x]).length : Int) - 1) < 0 ∨
      ((init ++ [x]).length : Int) ≤ ((init ++ [x]).length : Int) - 1) := by
    simp only [List.length_append, List.length_singleton]; omega
  rw [if_neg hc]
  simp

theorem block_NewBlock_some (sum256 : Sum256) (now : Int) (fuel : Nat) (index : Int)
    (data prevBlockHash : Bytes) (B : Block)
    (h : block.NewBlock sum256 now fuel index data prevBlockHash = some B) :
    B.Index = index ∧ B.TimeStamp = now ∧ B.Data = data ∧ B.PrevBlockHash = prevBlockHash ∧
    B.Hash = (sum256 (block.prepareData (block.NewProofOfWork B) B.Nonce)).val ∧
    SetBytes B.Hash < 2 ^ 236 := by
  simp only [block.NewBlock, block.Run] at h
  split at h
  · simp at h
  · rename_i nonce hash hrun
    obtain ⟨h1, h2⟩ := block_RunLoop_sound sum256 _ fuel 0 nonce hash hrun
    rw [block_target] at h2
    simp only [Option.some.injEq] at h
    subst h
    exact ⟨rfl, rfl, rfl, rfl, h1, h2⟩

theorem htmldemo_NewBlock_some (sum256 : Sum256) (now : Int) (fuel : Nat) (index : Int)
    (data prevBlockHash : Bytes) (B : Block)
    (h : htmldemo.NewBlock sum256 now fuel index data prevBlockHash = some B) :
    B.Index = index ∧ B.TimeStamp = now ∧ B.Data = data ∧ B.PrevBlockHash = prevBlockHash := by
  simp only [htmldemo.NewBlock, htmldemo.Run] at h
  split at h
  · simp at h
  · simp only [Option.some.injEq] at h
    subst h
    exact ⟨rfl, rfl, rfl, rfl⟩

/-- What a returning `AddBlock` of `block.go` did: it read the last block and appended the
block `NewBlock` made. -/
theorem block_AddBlock_ok (sum256 : Sum256) (now : Int) (fuel : Nat) (bc bc1 : Blockchain)
    (data : Bytes) (h : block.AddBlock sum256 now fuel bc data = Except.ok bc1) :
    ∃ init prevBlock newBlock,
      bc.blocks = init ++ [prevBlock] ∧
      block.NewBlock sum256 now fuel (wrapInt64 (prevBlock.Index + 1)) data prevBlock.Hash
        = some newBlock ∧
      bc1.blocks = bc.blocks ++ [newBlock] := by
  unfold block.AddBlock at h
  split at h
  · simp at h
  · rename_i prevBlock hidx
    obtain ⟨init, hinit⟩ := index_last _ _ hidx
    split at h
    · simp at h
    · rename_i newBlock hnew
      simp only [Except.ok.injEq] at h
      subst h
      exact ⟨init, prevBlock, newBlock, hinit, hnew, rfl⟩

theorem htmldemo_AddBlock_ok (sum256 : Sum256) (now : Int) (fuel : Nat) (bc bc1 : Blockchain)
    (data : Bytes) (h : htmldemo.AddBlock sum256 now fuel bc data = Except.ok bc1) :
    ∃ init prevBlock newBlock,
      bc.blocks = init ++ [prevBlock] ∧
      htmldemo.NewBlock sum256 now fuel (wrapInt64 (prevBlock.Index + 1)) data prevBlock.Hash
        = some newBlock ∧
      bc1.blocks = bc.blocks ++ [newBlock] := by
  unfold htmldemo.AddBlock at h
  split at h
  · simp at h
  · rename_i prevBlock hidx
    obtain ⟨init, hinit⟩ := index_last _ _ hidx
    split at h
    · simp at h
    · rename_i newBlock hnew
      simp only [Except.ok.injEq] at h
      subst h
      exact ⟨init, prevBlock, newBlock, hinit, hnew, rfl⟩

/-- Induction over a sequence of `AddBlock` calls, with the number of calls made so far. -/
theorem block_addBlocks_induction (sum256 : Sum256) (P : Nat → Blockchain → Prop)
    (hstep : ∀ (n : Nat) (bc bc1 : Blockchain) (c : Call), P n bc →
      block.AddBlock sum256 c.now c.fuel bc c.data = Except.ok bc1 → P (n + 1) bc1)
    (calls : List Call) :
    ∀ (n : Nat) (bc bc1 : Blockchain), P n bc →
      block.addBlocks sum256 bc calls = Except.ok bc1 → P (n + calls.length) bc1 := by
  induction calls with
  | nil =>
    intro n bc bc1 hP h
    simp only [block.addBlocks, Except.ok.injEq] at h
    subst h
    exact hP
  | cons c cs ih =>
    intro n bc bc1 hP h
    simp only [block.addBlocks] at h
    split at h
    · simp at h
    · rename_i bc2 hadd
      have := ih (n + 1) bc2 bc1 (hstep n bc bc2 c hP hadd) h
      rw [List.length_cons]
      have e : n + (cs.length + 1) = n + 1 + cs.length := by omega
      rw [e]; exact this

theorem block_NewBlockchain_some (sum256 : Sum256) (now : Int) (fuel : Nat) (bc : Blockchain)
    (h : block.NewBlockchain sum256 now fuel = some bc) :
    ∃ genesis, bc.blocks = [genesis] ∧
      block.NewBlock sum256 now fuel 0 (stringBytes "first block") [] = some genesis := by
  simp only [block.NewBlockchain, block.NewGenesisBlock] at h
  split at h
  · simp at h
  · rename_i genesis hg
    simp only [Option.some.injEq] at h
    subst h
    exact ⟨genesis, rfl, hg⟩

/-- Induction over the chains `block.go` builds. -/
theorem block_build_induction (sum256 : Sum256) (P : Nat → Blockchain → Prop)
    (hbase : ∀ (now : Int) (fuel : Nat) (bc : Blockchain),
      block.NewBlockchain sum256 now fuel = some bc → P 0 bc)
    (hstep : ∀ (n : Nat) (bc bc1 : Blockchain) (c : Call), P n bc →
      block.AddBlock sum256 c.now c.fuel bc c.data = Except.ok bc1 → P (n + 1) bc1)
    (now : Int) (fuel : Nat) (calls : List Call) (bc : Blockchain)
    (h : block.build sum256 now fuel calls = Except.ok bc) : P calls.length bc := by
  simp only [block.build] at h
  split at h
  · simp at h
  · rename_i bc0 h0
    have := block_addBlocks_induction sum256 P hstep calls 0 bc0 bc (hbase now fuel bc0 h0) h
    rw [Nat.zero_add] at this
    exact this

/-- The search of `NewBlock` ends within `2^64` iterations when some `int64` nonce wins for
the block being made. -/
theorem block_NewBlock_returns (sum256 : Sum256) (now index : Int) (data prevBlockHash : Bytes)
    (n : Int) (hn : isInt64 n)
    (hw : block.wins sum256
      (block.NewProofOfWork
        { Index := index, TimeStamp := now, Data := data, PrevBlockHash := prevBlockHash,
          Hash := [], Nonce := 0 }) n) :
    ∃ B, block.NewBlock sum256 now 18446744073709551616 index data prevBlockHash = some B := by
  obtain ⟨nonce, hash, hrun⟩ := block_Run_terminates sum256 _ n hn hw
  simp only [block.NewBlock, hrun]
  exact ⟨_, rfl⟩

/-- On a non-empty chain `AddBlock` returns as soon as the search of `NewBlock` does. -/
theorem block_AddBlock_returns (sum256 : Sum256) (now : Int) (fuel : Nat) (bc : Blockchain)
    (data : Bytes) (hne : bc.blocks ≠ []) (B : Block)
    (hB : block.NewBlock sum256 now fuel (wrapInt64 ((bc.blocks.getLast hne).Index + 1)) data
      (bc.blocks.getLast hne).Hash = some B) :
    block.AddBlock sum256 now fuel bc data = Except.ok { blocks := bc.blocks ++ [B] } := by
  have hidx : index bc.blocks ((bc.blocks.length : Int) - 1)
      = Except.ok (bc.blocks.getLast hne) := by
    have := index_last_append bc.blocks.dropLast (bc.blocks.getLast hne)
    rw [List.dropLast_append_getLast hne] at this
    exact this
  simp only [block.AddBlock, hidx, hB]

theorem Linked_append (bc : Blockchain) (init : List Block) (prevBlock newBlock : Block)
    (hl : Linked bc) (hinit : bc.blocks = init ++ [prevBlock])
    (hprev : newBlock.PrevBlockHash = prevBlock.Hash) :
    Linked { blocks := bc.blocks ++ [newBlock] } := by
  intro i hi h
  simp only [List.length_append, List.length_singleton] at h
  have hb0 : i < (bc.blocks ++ [newBlock]).length := by
    simp only [List.length_append, List.length_singleton]; omega
  have hb1 : i - 1 < (bc.blocks ++ [newBlock]).length := by omega
  by_cases hlt : i < bc.blocks.length
  · have h1 : (bc.blocks ++ [newBlock])[i] = bc.blocks[i] := List.getElem_append_left hlt
    have h2 : (bc.blocks ++ [newBlock])[i - 1] = bc.blocks[i - 1] :=
      List.getElem_append_left (by omega)
    show ((bc.blocks ++ [newBlock])[i]).PrevBlockHash = ((bc.blocks ++ [newBlock])[i - 1]).Hash
    rw [h1, h2]
    exact hl i hi hlt
  · have hi2 : i = bc.blocks.length := by omega
    subst hi2
    have hne : 0 < bc.blocks.length := hi
    have h1 : (bc.blocks ++ [newBlock])[bc.blocks.length] = newBlock := by simp
    have h2 : (bc.blocks ++ [newBlock])[bc.blocks.length - 1] = prevBlock := by
      rw [List.getElem_append_left (by omega)]
      simp [hinit]
    show ((bc.blocks ++ [newBlock])[bc.blocks.length]).PrevBlockHash =
      ((bc.blocks ++ [newBlock])[bc.blocks.length - 1]).Hash
    rw [h1, h2]
    exact hprev

/-! ## Claims on chains -/

/-- C3: in every chain built from `NewBlockchain()` by `AddBlock` calls, each block at a
position `i` with `0 < i < len(blocks)` has `PrevBlockHash` equal to the `Hash` of the block
at `i-1`; and `AddBlock` preserves this linkage on any chain. -/
theorem chain_linkage (sum256 : Sum256) (now : Int) (fuel : Nat) (calls : List Call)
    (bc bc0 bc1 : Blockchain) (c : Call) :
    (block.build sum256 now fuel calls = Except.ok bc → Linked bc) ∧
    (Linked bc0 → block.AddBlock sum256 c.now c.fuel bc0 c.data = Except.ok bc1 →
      Linked bc1) := by
  have hstep : ∀ (n : Nat) (x y : Blockchain) (d : Call), Linked x →
      block.AddBlock sum256 d.now d.fuel x d.data = Except.ok y → Linked y := by
    intro n x y d hl h
    obtain ⟨init, prevBlock, newBlock, hinit, hnew, hy⟩ := block_AddBlock_ok _ _ _ _ _ _ h
    obtain ⟨-, -, -, hp, -⟩ := block_NewBlock_some _ _ _ _ _ _ _ hnew
    have := Linked_append x init prevBlock newBlock hl hinit hp
    rw [← hy] at this
    exact this
  refine ⟨?_, hstep 0 bc0 bc1 c⟩
  intro h
  refine block_build_induction sum256 (fun _ x => Linked x) ?_ hstep now fuel calls bc h
  intro now0 fuel0 x hx
  obtain ⟨genesis, hg, -⟩ := block_NewBlockchain_some _ _ _ _ hx
  intro i hi hlen
  rw [hg] at hlen
  simp only [List.length_singleton] at hlen
  omega

/-- C3, on a run: the chain of `sampleCalls` and one more `AddBlock` on it. -/
theorem chain_linkage_witness :
    block.build (markSum256 3) 100 10 sampleCalls
        = Except.ok { blocks := [sampleGenesis, sampleA, sampleB, sampleC] } ∧
    Linked { blocks := [sampleGenesis, sampleA, sampleB, sampleC] } ∧
    block.AddBlock (markSum256 3) 102 10 { blocks := [sampleGenesis, sampleA] } [66]
        = Except.ok { blocks := [sampleGenesis, sampleA, sampleB] } ∧
    Linked { blocks := [sampleGenesis, sampleA, sampleB] } :=
  have hrun : block.build (markSum256 3) 100 10 sampleCalls
      = Except.ok { blocks := [sampleGenesis, sampleA, sampleB, sampleC] } := by rfl
  have hadd : block.AddBlock (markSum256 3) 102 10 { blocks := [sampleGenesis, sampleA] } [66]
      = Except.ok { blocks := [sampleGenesis, sampleA, sampleB] } := by rfl
  have hl2 : Linked { blocks := [sampleGenesis, sampleA] } := by
    intro i hi h
    have : i = 1 := by simp at h; omega
    subst this
    rfl
  ⟨hrun,
   (chain_linkage (markSum256 3) 100 10 sampleCalls
      { blocks := [sampleGenesis, sampleA, sampleB, sampleC] }
      { blocks := [sampleGenesis, sampleA] } { blocks := [sampleGenesis, sampleA, sampleB] }
      { data := [66], now := 102, fuel := 10 }).1 hrun,
   hadd,
   (chain_linkage (markSum256 3) 100 10 sampleCalls
      { blocks := [sampleGenesis, sampleA, sampleB, sampleC] }
      { blocks := [sampleGenesis, sampleA] } { blocks := [sampleGenesis, sampleA, sampleB] }
      { data := [66], now := 102, fuel := 10 }).2 hl2 hadd⟩

/-- C6 (as the code has it): on a non-empty chain a returning `AddBlock(d)` appends exactly
one block; its `PrevBlockHash` is the `Hash` of the old last block, its `Data` the bytes of
`d`, and its `Index` is the old last `Index` plus one in `int64` arithmetic: `Index + 1`
unless the old `Index` is `2^63 - 1`, where the sum wraps. A chain built from
`NewBlockchain()` by `n` calls has length `n + 1`, and for `n < 2^63` its block at position
`i` has `Index` `i`. The call does return, within `2^64` iterations of the search, whenever
some `int64` nonce wins for the new block. -/
theorem addBlock_appends_next (sum256 : Sum256) (now : Int) (fuel : Nat) (bc bc1 : Blockchain)
    (data : Bytes) (now0 : Int) (fuel0 : Nat) (calls : List Call) (chain : Blockchain) :
    (∀ hne : bc.blocks ≠ [],
      (∃ n : Int, isInt64 n ∧
        block.wins sum256
          (block.NewProofOfWork
            { Index := wrapInt64 ((bc.blocks.getLast hne).Index + 1), TimeStamp := now,
              Data := data, PrevBlockHash := (bc.blocks.getLast hne).Hash, Hash := [],
              Nonce := 0 }) n) →
      ∃ bc2, block.AddBlock sum256 now 18446744073709551616 bc data = Except.ok bc2) ∧
    (∀ hne : bc.blocks ≠ [],
      block.AddBlock sum256 now fuel bc data = Except.ok bc1 →
      ∃ newBlock : Block, bc1.blocks = bc.blocks ++ [newBlock] ∧
        newBlock.Index = wrapInt64 ((bc.blocks.getLast hne).Index + 1) ∧
        (isInt64 (bc.blocks.getLast hne).Index →
          (bc.blocks.getLast hne).Index ≠ 9223372036854775807 →
          newBlock.Index = (bc.blocks.getLast hne).Index + 1) ∧
        newBlock.PrevBlockHash = (bc.blocks.getLast hne).Hash ∧
        newBlock.Data = data) ∧
    (block.build sum256 now0 fuel0 calls = Except.ok chain →
      chain.blocks.length = calls.length + 1 ∧
      chain.blocks.map Block.Index =
        (List.range (calls.length + 1)).map (fun i : Nat => wrapInt64 (i : Int)) ∧
      (calls.length < 9223372036854775808 →
        chain.blocks.map Block.Index =
          (List.range (calls.length + 1)).map (fun i : Nat => (i : Int)))) := by
  refine ⟨?_, ?_, ?_⟩
  · intro hne ⟨n, hn, hw⟩
    obtain ⟨B, hB⟩ := block_NewBlock_returns sum256 now _ data _ n hn hw
    exact ⟨_, block_AddBlock_returns sum256 now _ bc data hne B hB⟩
  · intro hne h
    obtain ⟨init, prevBlock, newBlock, hinit, hnew, hy⟩ := block_AddBlock_ok _ _ _ _ _ _ h
    obtain ⟨hi, -, hd, hp, -⟩ := block_NewBlock_some _ _ _ _ _ _ _ hnew
    have hlast : bc.blocks.getLast hne = prevBlock := by
      simp [hinit]
    rw [hlast]
    refine ⟨newBlock, hy, hi, ?_, hp, hd⟩
    intro hr hmax
    rw [hi]
    apply wrapInt64_of_isInt64
    unfold isInt64 at hr ⊢
    omega
  · intro h
    have key := block_build_induction sum256
      (fun n x => x.blocks.length = n + 1 ∧
        x.blocks.map Block.Index =
          (List.range (n + 1)).map (fun i : Nat => wrapInt64 (i : Int)))
      ?_ ?_ now0 fuel0 calls chain h
    · refine ⟨key.1, key.2, ?_⟩
      intro hlt
      rw [key.2]
      apply List.map_congr_left
      intro i hi
      rw [List.mem_range] at hi
      apply wrapInt64_of_isInt64
      unfold isInt64
      omega
    · intro now1 fuel1 x hx
      obtain ⟨genesis, hg, hnew⟩ := block_NewBlockchain_some _ _ _ _ hx
      obtain ⟨hi, -⟩ := block_NewBlock_some _ _ _ _ _ _ _ hnew
      rw [hg]
      refine ⟨rfl, ?_⟩
      show [genesis.Index] = _
      rw [hi]
      rfl
    · intro n x y d ⟨hlen, hmap⟩ hadd
      obtain ⟨init, prevBlock, newBlock, hinit, hnew, hy⟩ := block_AddBlock_ok _ _ _ _ _ _ hadd
      obtain ⟨hi, -⟩ := block_NewBlock_some _ _ _ _ _ _ _ hnew
      have hprev : prevBlock.Index = wrapInt64 (n : Int) := by
        rw [hinit, List.range_succ, List.map_append, List.map_append] at hmap
        have := List.append_inj_right' hmap (by simp)
        simpa using this
      constructor
      · rw [hy, List.length_append, hlen]; rfl
      · have hnext : newBlock.Index = wrapInt64 ((n + 1 : Nat) : Int) := by
          rw [hi, hprev, wrapInt64_add_wrap, Nat.cast_succ]
        rw [hy, List.map_append, hmap, List.range_succ (n + 1), List.map_append,
          List.map_cons, List.map_nil, List.map_cons, List.map_nil, hnext]

/-- C6, on a run: `AddBlock("B")` on the chain of `sampleGenesis` and `sampleA`, and the
chain of the three calls `sampleCalls`, of length 4 with indices 0 to 3. -/
theorem addBlock_appends_next_witness :
    block.AddBlock (markSum256 3) 102 10 { blocks := [sampleGenesis, sampleA] } [66]
        = Except.ok { blocks := [sampleGenesis, sampleA, sampleB] } ∧
    (∃ newBlock : Block,
      [sampleGenesis, sampleA, sampleB] = [sampleGenesis, sampleA] ++ [newBlock] ∧
      newBlock.Index = sampleA.Index + 1 ∧ newBlock.PrevBlockHash = sampleA.Hash ∧
      newBlock.Data = [66]) ∧
    block.build (markSum256 3) 100 10 sampleCalls
        = Except.ok { blocks := [sampleGenesis, sampleA, sampleB, sampleC] } ∧
    [sampleGenesis, sampleA, sampleB, sampleC].length = 4 ∧
    [sampleGenesis, sampleA, sampleB, sampleC].map Block.Index = [0, 1, 2, 3] ∧
    (∃ bc2, block.AddBlock (markSum256 3) 102 18446744073709551616
        { blocks := [sampleGenesis, sampleA] } [66] = Except.ok bc2) :=
  have hadd : block.AddBlock (markSum256 3) 102 10 { blocks := [sampleGenesis, sampleA] } [66]
      = Except.ok { blocks := [sampleGenesis, sampleA, sampleB] } := by rfl
  have hrun : block.build (markSum256 3) 100 10 sampleCalls
      = Except.ok { blocks := [sampleGenesis, sampleA, sampleB, sampleC] } := by rfl
  have hthm := addBlock_appends_next (markSum256 3) 102 10 { blocks := [sampleGenesis, sampleA] }
      { blocks := [sampleGenesis, sampleA, sampleB] } [66] 100 10 sampleCalls
      { blocks := [sampleGenesis, sampleA, sampleB, sampleC] }
  ⟨hadd,
   (match hthm.2.1 (by decide) hadd with
    | ⟨newBlock, h1, _, h3, h4, h5⟩ =>
      ⟨newBlock, h1, h3 (by decide) (by decide), h4, h5⟩),
   hrun, (hthm.2.2 hrun).1, (hthm.2.2 hrun).2.2 (by decide),
   hthm.1 (by decide) ⟨3, by decide, by decide⟩⟩

/-- C6 as stated fails at the largest index: `AddBlock` on `maxIndexChain`, whose last block
has `Index = 2^63 - 1`, appends a block with `Index = -2^63`, which is not `Index + 1`. -/
theorem addBlock_index_wraps :
    block.AddBlock (markSum256 0) 1 5 maxIndexChain [65]
      = Except.ok { blocks :=
          [{ Index := 9223372036854775807, TimeStamp := 0, Data := [], PrevBlockHash := [],
             Hash := [9], Nonce := 0 },
           { Index := -9223372036854775808, TimeStamp := 1, Data := [65], PrevBlockHash := [9],
             Hash := 0 :: 0 :: 0 :: List.replicate 29 34, Nonce := 0 }] } ∧
    (-9223372036854775808 : Int) ≠ 9223372036854775807 + 1 :=
  ⟨by rfl, by decide⟩

/-- C7: after a returning `AddBlock(d)`, of `block.go` or of `htmldemo.go`, the chain is one
block longer and its first `len(c)` blocks are the blocks of the old chain `c`, in the same
order and equal in every field. -/
theorem addBlock_keeps_old_blocks (sum256 : Sum256) (now : Int) (fuel : Nat)
    (c c1 : Blockchain) (d : Bytes) :
    (block.AddBlock sum256 now fuel c d = Except.ok c1 →
      c1.blocks.length = c.blocks.length + 1 ∧ c1.blocks.take c.blocks.length = c.blocks ∧
      ∀ (i : Nat) (h : i < c.blocks.length), c1.blocks[i]? = some c.blocks[i]) ∧
    (htmldemo.AddBlock sum256 now fuel c d = Except.ok c1 →
      c1.blocks.length = c.blocks.length + 1 ∧ c1.blocks.take c.blocks.length = c.blocks ∧
      ∀ (i : Nat) (h : i < c.blocks.length), c1.blocks[i]? = some c.blocks[i]) := by
  constructor
  · intro h
    obtain ⟨init, prevBlock, newBlock, -, -, hy⟩ := block_AddBlock_ok _ _ _ _ _ _ h
    rw [hy]
    refine ⟨by simp, by simp, ?_⟩
    intro i hi
    rw [List.getElem?_append_left hi, List.getElem?_eq_getElem hi]
  · intro h
    obtain ⟨init, prevBlock, newBlock, -, -, hy⟩ := htmldemo_AddBlock_ok _ _ _ _ _ _ h
    rw [hy]
    refine ⟨by simp, by simp, ?_⟩
    intro i hi
    rw [List.getElem?_append_left hi, List.getElem?_eq_getElem hi]

/-- C7, on a run: `AddBlock("B")` of either file on the chain of `sampleGenesis` and
`sampleA`. -/
theorem addBlock_keeps_old_blocks_witness :
    block.AddBlock (markSum256 3) 102 10 { blocks := [sampleGenesis, sampleA] } [66]
        = Except.ok { blocks := [sampleGenesis, sampleA, sampleB] } ∧
    [sampleGenesis, sampleA, sampleB].take 2 = [sampleGenesis, sampleA] ∧
    htmldemo.AddBlock (markSum256 3) 102 10 { blocks := [sampleGenesis, sampleA] } [66]
        = Except.ok { blocks := [sampleGenesis, sampleA, sampleBDemo] } ∧
    [sampleGenesis, sampleA, sampleBDemo].take 2 = [sampleGenesis, sampleA] :=
  have h1 : block.AddBlock (markSum256 3) 102 10 { blocks := [sampleGenesis, sampleA] } [66]
      = Except.ok { blocks := [sampleGenesis, sampleA, sampleB] } := by rfl
  have h2 : htmldemo.AddBlock (markSum256 3) 102 10 { blocks := [sampleGenesis, sampleA] } [66]
      = Except.ok { blocks := [sampleGenesis, sampleA, sampleBDemo] } := by rfl
  ⟨h1,
   ((addBlock_keeps_old_blocks (markSum256 3) 102 10 { blocks := [sampleGenesis, sampleA] }
      { blocks := [sampleGenesis, sampleA, sampleB] } [66]).1 h1).2.1,
   h2,
   ((addBlock_keeps_old_blocks (markSum256 3) 102 10 { blocks := [sampleGenesis, sampleA] }
      { blocks := [sampleGenesis, sampleA, sampleBDemo] } [66]).2 h2).2.1⟩

/-- C8: a returning `NewBlockchain()` gives a chain of exactly one block, with `Index` 0,
`Data` the bytes of "first block" and an empty `PrevBlockHash`. -/
theorem newBlockchain_is_genesis (sum256 : Sum256) (now : Int) (fuel : Nat) (bc : Blockchain)
    (h : block.NewBlockchain sum256 now fuel = some bc) :
    bc.blocks.length = 1 ∧
    ∃ genesis : Block, bc.blocks = [genesis] ∧ genesis.Index = 0 ∧
      genesis.Data = stringBytes "first block" ∧
      genesis.Data = [102, 105, 114, 115, 116, 32, 98, 108, 111, 99, 107] ∧
      genesis.PrevBlockHash = [] := by
  obtain ⟨genesis, hg, hnew⟩ := block_NewBlockchain_some _ _ _ _ h
  obtain ⟨hi, -, hd, hp, -⟩ := block_NewBlock_some _ _ _ _ _ _ _ hnew
  refine ⟨by rw [hg]; rfl, genesis, hg, hi, hd, ?_, hp⟩
  rw [hd]
  decide

/-- C8, on a run: `NewBlockchain()` at clock reading 100 with `markSum256 3`. -/
theorem newBlockchain_is_genesis_witness :
    block.NewBlockchain (markSum256 3) 100 10 = some { blocks := [sampleGenesis] } ∧
    [sampleGenesis].length = 1 ∧
    ∃ genesis : Block, [sampleGenesis] = [genesis] ∧ genesis.Index = 0 ∧
      genesis.Data = stringBytes "first block" ∧
      genesis.Data = [102, 105, 114, 115, 116, 32, 98, 108, 111, 99, 107] ∧
      genesis.PrevBlockHash = [] :=
  ⟨by decide,
   newBlockchain_is_genesis (markSum256 3) 100 10 { blocks := [sampleGenesis] } (by decide)⟩

/-- C9: in every chain `block.go` builds from `NewBlockchain()` by `AddBlock` calls, every
block, the genesis block included, passes `NewProofOfWork(block).Validate()` and has a
`Hash` that is below `2^236` as a big-endian unsigned integer; the audit loop of `main`
takes the "illegal block" branch for no block. -/
theorem built_chain_is_valid (sum256 : Sum256) (now : Int) (fuel : Nat) (calls : List Call)
    (bc : Blockchain) (h : block.build sum256 now fuel calls = Except.ok bc) :
    (∀ b ∈ bc.blocks,
      block.Validate sum256 (block.NewProofOfWork b) = true ∧ SetBytes b.Hash < 2 ^ 236) ∧
    block.audit sum256 bc = List.replicate bc.blocks.length true := by
  have hnew : ∀ (now1 : Int) (fuel1 : Nat) (index : Int) (data prev : Bytes) (B : Block),
      block.NewBlock sum256 now1 fuel1 index data prev = some B →
        block.Validate sum256 (block.NewProofOfWork B) = true ∧ SetBytes B.Hash < 2 ^ 236 := by
    intro now1 fuel1 index data prev B hB
    obtain ⟨-, -, -, -, hh, hlt⟩ := block_NewBlock_some _ _ _ _ _ _ _ hB
    refine ⟨?_, hlt⟩
    simp only [block.Validate, decide_eq_true_eq, Cmp_eq_neg_one_iff, block_target]
    rw [hh] at hlt
    exact hlt
  have key := block_build_induction sum256
    (fun _ x => ∀ b ∈ x.blocks,
      block.Validate sum256 (block.NewProofOfWork b) = true ∧ SetBytes b.Hash < 2 ^ 236)
    ?_ ?_ now fuel calls bc h
  · refine ⟨key, ?_⟩
    rw [List.eq_replicate_iff]
    refine ⟨by simp [block.audit], ?_⟩
    intro v hv
    simp only [block.audit, List.mem_map] at hv
    obtain ⟨b, hb, hvb⟩ := hv
    rw [← hvb]
    exact (key b hb).1
  · intro now1 fuel1 x hx b hb
    obtain ⟨genesis, hg, hgen⟩ := block_NewBlockchain_some _ _ _ _ hx
    rw [hg, List.mem_singleton] at hb
    subst hb
    exact hnew _ _ _ _ _ _ hgen
  · intro n x y d hx hadd b hb
    obtain ⟨init, prevBlock, newBlock, -, hB, hy⟩ := block_AddBlock_ok _ _ _ _ _ _ hadd
    rw [hy, List.mem_append, List.mem_singleton] at hb
    rcases hb with hb | hb
    · exact hx b hb
    · subst hb
      exact hnew _ _ _ _ _ _ hB

/-- C9, on a run: the chain of `sampleCalls` passes the audit of `main`. -/
theorem built_chain_is_valid_witness :
    block.build (markSum256 3) 100 10 sampleCalls
        = Except.ok { blocks := [sampleGenesis, sampleA, sampleB, sampleC] } ∧
    block.audit (markSum256 3) { blocks := [sampleGenesis, sampleA, sampleB, sampleC] }
        = [true, true, true, true] ∧
    (∀ b ∈ [sampleGenesis, sampleA, sampleB, sampleC],
      block.Validate (markSum256 3) (block.NewProofOfWork b) = true ∧
        SetBytes b.Hash < 2 ^ 236) :=
  have hrun : block.build (markSum256 3) 100 10 sampleCalls
      = Except.ok { blocks := [sampleGenesis, sampleA, sampleB, sampleC] } := by rfl
  ⟨hrun,
   (built_chain_is_valid (markSum256 3) 100 10 sampleCalls
      { blocks := [sampleGenesis, sampleA, sampleB, sampleC] } hrun).2,
   (built_chain_is_valid (markSum256 3) 100 10 sampleCalls
      { blocks := [sampleGenesis, sampleA, sampleB, sampleC] } hrun).1⟩

/-! ## Claims on the integer encoding -/

theorem IntToHex_injective (v w : Int) (hv : isInt64 v) (hw : isInt64 w)
    (h : IntToHex v = IntToHex w) : v = w := by
  have := congrArg SetBytes h
  rw [SetBytes_IntToHex, SetBytes_IntToHex] at this
  unfold isInt64 at hv hw
  unfold uint64 at this
  omega

/-- C11: for every `int64` value `v`, `IntToHex(v)` does not take its panic branch and
returns exactly 8 bytes, the big-endian two's-complement encoding of `v`: read as an
unsigned big-endian number they are `v mod 2^64` (`v` itself when `v >= 0`, `v + 2^64` when
`v < 0`). So `IntToHex` is injective on `int64` and `v` is recovered from the bytes. -/
theorem intToHex_encoding (v w : Int) (hv : isInt64 v) (hw : isInt64 w) :
    IntToHexChecked v = some (IntToHex v) ∧
    (IntToHex v).length = 8 ∧
    (SetBytes (IntToHex v) : Int) = v % 18446744073709551616 ∧
    (0 ≤ v → (SetBytes (IntToHex v) : Int) = v) ∧
    (v < 0 → (SetBytes (IntToHex v) : Int) = v + 18446744073709551616) ∧
    (IntToHex v = IntToHex w → v = w) ∧
    Int64FromHex (IntToHex v) = v := by
  have hs : (SetBytes (IntToHex v) : Int) = v % 18446744073709551616 := by
    rw [SetBytes_IntToHex]; unfold uint64; omega
  refine ⟨rfl, rfl, hs, ?_, ?_, IntToHex_injective v w hv hw, ?_⟩
  · intro h0; rw [hs]; unfold isInt64 at hv; omega
  · intro h0; rw [hs]; unfold isInt64 at hv; omega
  · unfold Int64FromHex
    rw [SetBytes_IntToHex]
    exact wrapInt64_uint64 v hv

/-- C11, on values: `IntToHex(-2)` is `ff ff ff ff ff ff ff fe` and differs from
`IntToHex(258)`, which is `00 00 00 00 00 00 01 02`. -/
theorem intToHex_encoding_witness :
    isInt64 (-2) ∧ isInt64 258 ∧
    IntToHex (-2) = [255, 255, 255, 255, 255, 255, 255, 254] ∧
    IntToHex 258 = [0, 0, 0, 0, 0, 0, 1, 2] ∧
    IntToHexChecked (-2) = some (IntToHex (-2)) ∧
    (SetBytes (IntToHex (-2)) : Int) = -2 + 18446744073709551616 ∧
    Int64FromHex (IntToHex (-2)) = -2 :=
  ⟨by decide, by decide, by decide, by decide,
   (intToHex_encoding (-2) 258 (by decide) (by decide)).1,
   (intToHex_encoding (-2) 258 (by decide) (by decide)).2.2.2.2.1 (by decide),
   (intToHex_encoding (-2) 258 (by decide) (by decide)).2.2.2.2.2.2⟩

/-! ## Claims on the serialization -/

/-- Equal prepared data of `block.go` have equal variable-length parts (taken together) and
equal encodings of index, timestamp and nonce. -/
theorem block_prepareData_split (pow1 pow2 : ProofOfWork) (n1 n2 : Int)
    (h : block.prepareData pow1 n1 = block.prepareData pow2 n2) :
    pow1.block.PrevBlockHash ++ pow1.block.Data = pow2.block.PrevBlockHash ++ pow2.block.Data ∧
    IntToHex pow1.block.Index = IntToHex pow2.block.Index ∧
    IntToHex pow1.block.TimeStamp = IntToHex pow2.block.TimeStamp ∧
    IntToHex n1 = IntToHex n2 := by
  rw [block_prepareData_eq, block_prepareData_eq] at h
  obtain ⟨h5, hn⟩ := List.append_inj' h (by simp only [IntToHex_length])
  obtain ⟨h4, -⟩ := List.append_inj' h5 (by simp only [IntToHex_length])
  obtain ⟨h3, ht⟩ := List.append_inj' h4 (by simp only [IntToHex_length])
  obtain ⟨h2, hi⟩ := List.append_inj' h3 (by simp only [IntToHex_length])
  exact ⟨h2, hi, ht, hn⟩

/-- C12 (as the code has it): when the prepared data of `b1` with `n1` and of `b2` with
`n2` are the same bytes, the two blocks have equal `Index` and `TimeStamp`, `n1 = n2`, and
the same concatenation of `PrevBlockHash` and `Data`; the boundary between `PrevBlockHash`
and `Data` is not determined. -/
theorem serialization_determines_content (b1 b2 : Block) (n1 n2 : Int)
    (h1 : b1.WellTyped) (h2 : b2.WellTyped) (hn1 : isInt64 n1) (hn2 : isInt64 n2)
    (h : block.prepareData (block.NewProofOfWork b1) n1 =
      block.prepareData (block.NewProofOfWork b2) n2) :
    b1.PrevBlockHash ++ b1.Data = b2.PrevBlockHash ++ b2.Data ∧
    b1.Index = b2.Index ∧ b1.TimeStamp = b2.TimeStamp ∧ n1 = n2 := by
  obtain ⟨hpd, hi, ht, hn⟩ := block_prepareData_split _ _ _ _ h
  exact ⟨hpd, IntToHex_injective _ _ h1.1 h2.1 hi, IntToHex_injective _ _ h1.2.1 h2.2.1 ht,
    IntToHex_injective _ _ hn1 hn2 hn⟩

/-- C12, on blocks: `joinBlockA` and `joinBlockB` have the same prepared data at nonce 4. -/
theorem serialization_determines_content_witness :
    block.prepareData (block.NewProofOfWork joinBlockA) 4 =
      block.prepareData (block.NewProofOfWork joinBlockB) 4 ∧
    (joinBlockA.PrevBlockHash ++ joinBlockA.Data = joinBlockB.PrevBlockHash ++ joinBlockB.Data ∧
      joinBlockA.Index = joinBlockB.Index ∧ joinBlockA.TimeStamp = joinBlockB.TimeStamp ∧
      (4 : Int) = 4) :=
  ⟨by decide,
   serialization_determines_content joinBlockA joinBlockB 4 4 (by decide) (by decide)
     (by decide) (by decide) (by decide)⟩

/-- C12 as stated fails: `joinBlockA` and `joinBlockB` have the same prepared data but
different `PrevBlockHash` and different `Data`. -/
theorem serialization_join_ambiguous :
    block.prepareData (block.NewProofOfWork joinBlockA) 4 =
      block.prepareData (block.NewProofOfWork joinBlockB) 4 ∧
    joinBlockA.PrevBlockHash ≠ joinBlockB.PrevBlockHash ∧
    joinBlockA.Data ≠ joinBlockB.Data := by
  decide

/-- C18: for blocks whose `PrevBlockHash` have the same length, equal prepared data of
`block.go` mean equal `PrevBlockHash`, `Data`, `Index` and `TimeStamp` and equal nonces. -/
theorem serialization_injective_fixed_prev (b1 b2 : Block) (n1 n2 : Int)
    (h1 : b1.WellTyped) (h2 : b2.WellTyped) (hn1 : isInt64 n1) (hn2 : isInt64 n2)
    (hlen : b1.PrevBlockHash.length = b2.PrevBlockHash.length)
    (h : block.prepareData (block.NewProofOfWork b1) n1 =
      block.prepareData (block.NewProofOfWork b2) n2) :
    b1.PrevBlockHash = b2.PrevBlockHash ∧ b1.Data = b2.Data ∧
    b1.Index = b2.Index ∧ b1.TimeStamp = b2.TimeStamp ∧ n1 = n2 := by
  obtain ⟨hpd, hi, ht, hn⟩ := block_prepareData_split _ _ _ _ h
  obtain ⟨hp, hd⟩ := List.append_inj hpd hlen
  exact ⟨hp, hd, IntToHex_injective _ _ h1.1 h2.1 hi,
    IntToHex_injective _ _ h1.2.1 h2.2.1 ht, IntToHex_injective _ _ hn1 hn2 hn⟩

/-- C18, on blocks: `sampleSealed` and the same block with another stored hash. -/
theorem serialization_injective_fixed_prev_witness :
    block.prepareData (block.NewProofOfWork sampleSealed) 3 =
      block.prepareData (block.NewProofOfWork { sampleSealed with Hash := [] }) 3 ∧
    (sampleSealed.PrevBlockHash = [1, 2, 3] ∧ sampleSealed.Data = [104, 105] ∧
      sampleSealed.Index = 7 ∧ sampleSealed.TimeStamp = 1700000000 ∧ (3 : Int) = 3) :=
  ⟨by decide,
   serialization_injective_fixed_prev sampleSealed { sampleSealed with Hash := [] } 3 3
     (by decide) (by decide) (by decide) (by decide) (by decide) (by decide)⟩

/-- C14: `Validate` does not read the stored hash: two blocks that agree on `Index`,
`TimeStamp`, `Data`, `PrevBlockHash` and `Nonce` get the same answer, whatever their `Hash`
fields; a block whose nonce wins validates with any bytes written over its `Hash`. -/
theorem validate_ignores_hash (sum256 : Sum256) (b1 b2 : Block) (garbage : Bytes)
    (hi : b1.Index = b2.Index) (ht : b1.TimeStamp = b2.TimeStamp) (hd : b1.Data = b2.Data)
    (hp : b1.PrevBlockHash = b2.PrevBlockHash) (hn : b1.Nonce = b2.Nonce) :
    block.Validate sum256 (block.NewProofOfWork b1) =
      block.Validate sum256 (block.NewProofOfWork b2) ∧
    (block.wins sum256 (block.NewProofOfWork b1) b1.Nonce →
      block.Validate sum256 (block.NewProofOfWork { b1 with Hash := garbage }) = true) := by
  have hprep : ∀ (x y : Block), x.Index = y.Index → x.TimeStamp = y.TimeStamp →
      x.Data = y.Data → x.PrevBlockHash = y.PrevBlockHash → ∀ n,
      block.prepareData (block.NewProofOfWork x) n =
        block.prepareData (block.NewProofOfWork y) n := by
    intro x y e1 e2 e3 e4 n
    rw [block_prepareData_eq, block_prepareData_eq]
    show x.PrevBlockHash ++ x.Data ++ IntToHex x.Index ++ IntToHex x.TimeStamp ++ _ ++ _ =
      y.PrevBlockHash ++ y.Data ++ IntToHex y.Index ++ IntToHex y.TimeStamp ++ _ ++ _
    rw [e1, e2, e3, e4]
  constructor
  · simp only [block.Validate]
    have hb1 : (block.NewProofOfWork b1).block = b1 := rfl
    have hb2 : (block.NewProofOfWork b2).block = b2 := rfl
    rw [hb1, hb2, hprep b1 b2 hi ht hd hp, hn, block_target, block_target]
  · intro hw
    unfold block.wins at hw
    simp only [block.Validate, decide_eq_true_eq, Cmp_eq_neg_one_iff]
    exact hw

/-- C14, on a block: `sampleSealed`, and `sampleSealed` with its hash overwritten, both
validate. -/
theorem validate_ignores_hash_witness :
    block.Validate (markSum256 3) (block.NewProofOfWork sampleSealed) = true ∧
    block.Validate (markSum256 3)
        (block.NewProofOfWork { sampleSealed with Hash := [222, 173] }) = true ∧
    block.Validate (markSum256 3) (block.NewProofOfWork sampleSealed) =
      block.Validate (markSum256 3)
        (block.NewProofOfWork { sampleSealed with Hash := [222, 173] }) :=
  ⟨by decide,
   (validate_ignores_hash (markSum256 3) sampleSealed { sampleSealed with Hash := [222, 173] }
      [222, 173] rfl rfl rfl rfl rfl).2 (by decide),
   (validate_ignores_hash (markSum256 3) sampleSealed { sampleSealed with Hash := [222, 173] }
      [222, 173] rfl rfl rfl rfl rfl).1⟩

/-! ## Claims on `htmldemo.go` -/

/-- The loop of `htmldemo.go` depends on the block only through the prepared data and on
the target. -/
theorem htmldemo_RunLoop_congr (sum256 : Sum256) (pow1 pow2 : ProofOfWork)
    (hdata : ∀ n, htmldemo.prepareData pow1 n = htmldemo.prepareData pow2 n)
    (htarget : pow1.target = pow2.target) (fuel : Nat) :
    ∀ start : Int,
      htmldemo.RunLoop sum256 pow1 fuel start = htmldemo.RunLoop sum256 pow2 fuel start := by
  induction fuel with
  | zero => intro start; rfl
  | succ fuel ih =>
    intro start
    simp only [htmldemo.RunLoop, hdata, htarget, ih]

/-- A result of the loop of `htmldemo.go` does not change with a larger budget. -/
theorem htmldemo_RunLoop_mono (sum256 : Sum256) (pow : ProofOfWork) (fuel : Nat) :
    ∀ (start : Int) (r : Int × Bytes) (k : Nat),
      htmldemo.RunLoop sum256 pow fuel start = some r →
        htmldemo.RunLoop sum256 pow (fuel + k) start = some r := by
  induction fuel with
  | zero => intro start r k h; simp [htmldemo.RunLoop] at h
  | succ fuel ih =>
    intro start r k h
    have e : fuel + 1 + k = (fuel + k) + 1 := by omega
    rw [e]
    simp only [htmldemo.RunLoop] at h ⊢
    split_ifs at h ⊢ with hc
    · exact h
    · exact ih _ _ _ h

/-- Two returning runs of the loop of `htmldemo.go` from the same nonce agree. -/
theorem htmldemo_RunLoop_deterministic (sum256 : Sum256) (pow : ProofOfWork)
    (fuel1 fuel2 : Nat) (start : Int) (r1 r2 : Int × Bytes)
    (h1 : htmldemo.RunLoop sum256 pow fuel1 start = some r1)
    (h2 : htmldemo.RunLoop sum256 pow fuel2 start = some r2) : r1 = r2 := by
  have e1 := htmldemo_RunLoop_mono sum256 pow fuel1 start r1 fuel2 h1
  have e2 := htmldemo_RunLoop_mono sum256 pow fuel2 start r2 fuel1 h2
  rw [Nat.add_comm] at e2
  rw [e1] at e2
  simpa using e2

theorem htmldemo_prepareData_fields (b1 b2 : Block) (hp : b1.PrevBlockHash = b2.PrevBlockHash)
    (hd : b1.Data = b2.Data) (ht : b1.TimeStamp = b2.TimeStamp) (n : Int) :
    htmldemo.prepareData (htmldemo.NewProofOfWork b1) n =
      htmldemo.prepareData (htmldemo.NewProofOfWork b2) n := by
  rw [htmldemo_prepareData_eq, htmldemo_prepareData_eq]
  show b1.PrevBlockHash ++ b1.Data ++ IntToHex b1.TimeStamp ++ _ ++ _ =
    b2.PrevBlockHash ++ b2.Data ++ IntToHex b2.TimeStamp ++ _ ++ _
  rw [hp, hd, ht]

theorem htmldemo_Run_fields (sum256 : Sum256) (b1 b2 : Block)
    (hp : b1.PrevBlockHash = b2.PrevBlockHash) (hd : b1.Data = b2.Data)
    (ht : b1.TimeStamp = b2.TimeStamp) (fuel : Nat) :
    htmldemo.Run sum256 (htmldemo.NewProofOfWork b1) fuel =
      htmldemo.Run sum256 (htmldemo.NewProofOfWork b2) fuel := by
  unfold htmldemo.Run
  exact htmldemo_RunLoop_congr sum256 _ _ (htmldemo_prepareData_fields b1 b2 hp hd ht)
    (by rw [htmldemo_target, htmldemo_target]) fuel 0

/-- C17: the prepared data of `htmldemo.go` leave the block index out: for two blocks with
the same `PrevBlockHash`, `Data` and `TimeStamp` they are the same bytes at every nonce, and
`Run` gives the same result; the prepared data of `block.go` differ whenever the two
indices differ. -/
theorem index_only_in_block_go (sum256 : Sum256) (b1 b2 : Block) (n : Int) (fuel : Nat)
    (hp : b1.PrevBlockHash = b2.PrevBlockHash) (hd : b1.Data = b2.Data)
    (ht : b1.TimeStamp = b2.TimeStamp) (h1 : isInt64 b1.Index) (h2 : isInt64 b2.Index) :
    htmldemo.prepareData (htmldemo.NewProofOfWork b1) n =
      htmldemo.prepareData (htmldemo.NewProofOfWork b2) n ∧
    htmldemo.Run sum256 (htmldemo.NewProofOfWork b1) fuel =
      htmldemo.Run sum256 (htmldemo.NewProofOfWork b2) fuel ∧
    (b1.Index ≠ b2.Index →
      block.prepareData (block.NewProofOfWork b1) n ≠
        block.prepareData (block.NewProofOfWork b2) n) := by
  refine ⟨htmldemo_prepareData_fields b1 b2 hp hd ht n,
    htmldemo_Run_fields sum256 b1 b2 hp hd ht fuel, ?_⟩
  intro hne heq
  obtain ⟨-, hi, -, -⟩ := block_prepareData_split _ _ _ _ heq
  exact hne (IntToHex_injective _ _ h1 h2 hi)

/-- C17, on blocks: `sampleBlock` with index 7 and with index 8. -/
theorem index_only_in_block_go_witness :
    htmldemo.Run (markSum256 3) (htmldemo.NewProofOfWork sampleBlock) 10 =
      some (3, 0 :: 0 :: 0 :: List.replicate 29 29) ∧
    htmldemo.Run (markSum256 3) (htmldemo.NewProofOfWork sampleBlock) 10 =
      htmldemo.Run (markSum256 3) (htmldemo.NewProofOfWork { sampleBlock with Index := 8 }) 10 ∧
    block.prepareData (block.NewProofOfWork sampleBlock) 3 ≠
      block.prepareData (block.NewProofOfWork { sampleBlock with Index := 8 }) 3 :=
  ⟨by decide,
   (index_only_in_block_go (markSum256 3) sampleBlock { sampleBlock with Index := 8 } 3 10
      rfl rfl rfl (by decide) (by decide)).2.1,
   (index_only_in_block_go (markSum256 3) sampleBlock { sampleBlock with Index := 8 } 3 10
      rfl rfl rfl (by decide) (by decide)).2.2 (by decide)⟩

theorem htmldemo_setHash_of_run (sum256 : Sum256) (fuel : Nat) (x y : Block)
    (hp : x.PrevBlockHash = y.PrevBlockHash) (hd : x.Data = y.Data)
    (ht : x.TimeStamp = y.TimeStamp) (nonce : Int) (hash : Bytes)
    (hrun : htmldemo.Run sum256 (htmldemo.NewProofOfWork x) fuel = some (nonce, hash)) :
    htmldemo.setHash sum256 fuel y = some { y with Hash := hash, Nonce := nonce } := by
  have h0 : htmldemo.Run sum256 (htmldemo.NewProofOfWork { y with Nonce := 0 }) fuel
      = some (nonce, hash) := by
    rw [← hrun]
    exact (htmldemo_Run_fields sum256 x { y with Nonce := 0 } hp hd ht fuel).symm
  simp only [htmldemo.setHash, h0]

theorem htmldemo_setHash_some (sum256 : Sum256) (fuel : Nat) (y Y : Block)
    (h : htmldemo.setHash sum256 fuel y = some Y) :
    ∃ nonce hash,
      htmldemo.Run sum256 (htmldemo.NewProofOfWork { y with Nonce := 0 }) fuel
        = some (nonce, hash) ∧
      Y = { y with Hash := hash, Nonce := nonce } := by
  simp only [htmldemo.setHash] at h
  split at h
  · simp at h
  · rename_i nonce hash hrun
    simp only [Option.some.injEq] at h
    exact ⟨nonce, hash, hrun, h.symm⟩

/-- C13 (as the code has it): `setHash` of `htmldemo.go` reads no clock: the resealed block
keeps its `TimeStamp`, `Index`, `Data` and `PrevBlockHash`, and gets the nonce and hash of a
search from nonce 0. Resealing once more returns the same block, any returning reseal of a
block with the same `PrevBlockHash`, `Data` and `TimeStamp` gives the same `Hash` and
`Nonce`, and resealing a block that `NewBlock` made, with its payload unchanged, gives that
block back. -/
theorem reseal_keeps_timestamp (sum256 : Sum256) (fuel fuel1 : Nat) (now index : Int)
    (data prevBlockHash : Bytes) (b b1 B B1 : Block) :
    (htmldemo.setHash sum256 fuel b = some B →
      B.TimeStamp = b.TimeStamp ∧ B.Index = b.Index ∧ B.Data = b.Data ∧
      B.PrevBlockHash = b.PrevBlockHash ∧
      htmldemo.setHash sum256 fuel B = some B ∧
      (b1.PrevBlockHash = b.PrevBlockHash → b1.Data = b.Data → b1.TimeStamp = b.TimeStamp →
        htmldemo.setHash sum256 fuel1 b1 = some B1 →
        B1.Hash = B.Hash ∧ B1.Nonce = B.Nonce)) ∧
    (htmldemo.NewBlock sum256 now fuel index data prevBlockHash = some b →
      htmldemo.setHash sum256 fuel b = some b) := by
  constructor
  · intro h
    obtain ⟨nonce, hash, hrun, hB⟩ := htmldemo_setHash_some sum256 fuel b B h
    subst hB
    refine ⟨rfl, rfl, rfl, rfl, ?_, ?_⟩
    · exact htmldemo_setHash_of_run sum256 fuel { b with Nonce := 0 }
        { b with Hash := hash, Nonce := nonce } rfl rfl rfl nonce hash hrun
    · intro e1 e2 e3 h1
      obtain ⟨nonce1, hash1, hrun1, hB1⟩ := htmldemo_setHash_some sum256 fuel1 b1 B1 h1
      subst hB1
      rw [htmldemo_Run_fields sum256 { b1 with Nonce := 0 } { b with Nonce := 0 }
        e1 e2 e3 fuel1] at hrun1
      have := htmldemo_RunLoop_deterministic sum256 _ fuel1 fuel 0 _ _ hrun1 hrun
      simp only [Prod.mk.injEq] at this
      exact ⟨this.2, this.1⟩
  · intro h
    simp only [htmldemo.NewBlock] at h
    split at h
    · simp at h
    · rename_i nonce hash hrun
      simp only [Option.some.injEq] at h
      subst h
      exact htmldemo_setHash_of_run sum256 fuel
        { Index := index, TimeStamp := now, Data := data, PrevBlockHash := prevBlockHash,
          Hash := [], Nonce := 0 }
        { Index := index, TimeStamp := now, Data := data, PrevBlockHash := prevBlockHash,
          Hash := hash, Nonce := nonce } rfl rfl rfl nonce hash hrun

/-- C13, on a run: `sampleSealedDemo`, made by `NewBlock` at clock reading 1700000000, is
resealed to itself, and resealing `sampleSealed` keeps its `TimeStamp`. -/
theorem reseal_keeps_timestamp_witness :
    htmldemo.NewBlock (markSum256 3) 1700000000 10 7 [104, 105] [1, 2, 3]
      = some sampleSealedDemo ∧
    htmldemo.setHash (markSum256 3) 10 sampleSealedDemo = some sampleSealedDemo ∧
    htmldemo.setHash (markSum256 3) 10 sampleSealed = some sampleSealedDemo ∧
    sampleSealedDemo.TimeStamp = sampleSealed.TimeStamp :=
  ⟨by decide,
   (reseal_keeps_timestamp (markSum256 3) 10 10 1700000000 7 [104, 105] [1, 2, 3]
      sampleSealedDemo sampleSealedDemo sampleSealedDemo sampleSealedDemo).2 (by decide),
   by decide,
   ((reseal_keeps_timestamp (markSum256 3) 10 10 1700000000 7 [104, 105] [1, 2, 3]
      sampleSealed sampleSealedDemo sampleSealedDemo sampleSealedDemo).1 (by decide)).1⟩

/-- C13 as stated fails: the block `sampleSealedDemo` carries the clock reading 1700000000
of its creation; `setHash`, which takes no clock reading, returns it with the same
`TimeStamp`, the same `Hash` and the same `Nonce`. -/
theorem reseal_same_block :
    htmldemo.setHash (markSum256 3) 10 sampleSealedDemo
      = some { Index := 7, TimeStamp := 1700000000, Data := [104, 105],
               PrevBlockHash := [1, 2, 3], Hash := 0 :: 0 :: 0 :: List.replicate 29 29,
               Nonce := 3 } ∧
    sampleSealedDemo.TimeStamp = 1700000000 ∧
    sampleSealedDemo.Hash = 0 :: 0 :: 0 :: List.replicate 29 29 ∧
    sampleSealedDemo.Nonce = 3 := by
  decide

/-! ## The tail access of `AddBlock` -/

theorem index_last_ok_iff {α : Type} (xs : List α) :
    (∃ x, index xs ((xs.length : Int) - 1) = Except.ok x) ↔ xs ≠ [] := by
  constructor
  · rintro ⟨x, hx⟩ h0
    subst h0
    simp [index] at hx
  · intro hne
    refine ⟨xs.getLast hne, ?_⟩
    have := index_last_append xs.dropLast (xs.getLast hne)
    rw [List.dropLast_append_getLast hne] at this
    exact this

/-- C19: the access `bc.blocks[len(bc.blocks)-1]` of `AddBlock` is in range exactly when the
chain is not empty. Every chain built from `NewBlockchain()` by `AddBlock` calls has at
least one block, and `AddBlock` does not fail with an index out of range on it; on the empty
`Blockchain` value `AddBlock`, of either file, fails with an index out of range and appends
nothing. -/
theorem addBlock_tail_in_range (sum256 : Sum256) (now now1 : Int) (fuel fuel1 : Nat)
    (calls : List Call) (bc chain : Blockchain) (data : Bytes) :
    ((∃ prevBlock, index bc.blocks ((bc.blocks.length : Int) - 1) = Except.ok prevBlock) ↔
      bc.blocks ≠ []) ∧
    (block.build sum256 now fuel calls = Except.ok chain →
      1 ≤ chain.blocks.length ∧
      block.AddBlock sum256 now1 fuel1 chain data ≠ Except.error Fault.indexOutOfRange) ∧
    block.AddBlock sum256 now1 fuel1 { blocks := [] } data
      = Except.error Fault.indexOutOfRange ∧
    htmldemo.AddBlock sum256 now1 fuel1 { blocks := [] } data
      = Except.error Fault.indexOutOfRange := by
  refine ⟨index_last_ok_iff bc.blocks, ?_, rfl, rfl⟩
  intro h
  have hlen : 1 ≤ chain.blocks.length := by
    have := block_build_induction sum256 (fun _ x => 1 ≤ x.blocks.length) ?_ ?_
      now fuel calls chain h
    · exact this
    · intro now0 fuel0 x hx
      obtain ⟨genesis, hg, -⟩ := block_NewBlockchain_some _ _ _ _ hx
      rw [hg]; simp
    · intro n x y c _ hadd
      obtain ⟨init, prevBlock, newBlock, -, -, hy⟩ := block_AddBlock_ok _ _ _ _ _ _ hadd
      rw [hy]; simp
  refine ⟨hlen, ?_⟩
  have hne : chain.blocks ≠ [] := by
    intro h0; rw [h0] at hlen; simp at hlen
  obtain ⟨prevBlock, hidx⟩ := (index_last_ok_iff chain.blocks).mpr hne
  simp only [block.AddBlock, hidx]
  split <;> simp

/-- C19, on a run: the chain of `sampleCalls` has four blocks and a further `AddBlock` on it
returns, while `AddBlock` on the empty chain fails. -/
theorem addBlock_tail_in_range_witness :
    block.build (markSum256 3) 100 10 sampleCalls
        = Except.ok { blocks := [sampleGenesis, sampleA, sampleB, sampleC] } ∧
    1 ≤ [sampleGenesis, sampleA, sampleB, sampleC].length ∧
    block.AddBlock (markSum256 3) 104 10
        { blocks := [sampleGenesis, sampleA, sampleB, sampleC] } [68]
      ≠ Except.error Fault.indexOutOfRange ∧
    block.AddBlock (markSum256 3) 104 10 { blocks := [] } [68]
      = Except.error Fault.indexOutOfRange :=
  have hrun : block.build (markSum256 3) 100 10 sampleCalls
      = Except.ok { blocks := [sampleGenesis, sampleA, sampleB, sampleC] } := by rfl
  have hthm := addBlock_tail_in_range (markSum256 3) 100 104 10 10 sampleCalls
      { blocks := [] } { blocks := [sampleGenesis, sampleA, sampleB, sampleC] } [68]
  ⟨hrun, (hthm.2.1 hrun).1, (hthm.2.1 hrun).2, hthm.2.2.1⟩

/-! ## Difficulty bits -/

theorem SetBytes_append (a b : Bytes) :
    SetBytes (a ++ b) = SetBytes a * 256 ^ b.length + SetBytes b := by
  induction b using List.reverseRecOn with
  | nil => simp [SetBytes]
  | append_singleton b x ih =>
    rw [← List.append_assoc, SetBytes_append_singleton, SetBytes_append_singleton, ih,
      List.length_append, List.length_singleton, pow_succ]
    ring

/-- The value of a digest, split after its first three bytes. -/
theorem SetBytes_three (x0 x1 x2 : Fin 256) (rest : Bytes) :
    SetBytes (x0 :: x1 :: x2 :: rest) =
      ((x0.val * 256 + x1.val) * 256 + x2.val) * 256 ^ rest.length + SetBytes rest := by
  have h := SetBytes_append [x0, x1, x2] rest
  have h3 : SetBytes [x0, x1, x2] = (x0.val * 256 + x1.val) * 256 + x2.val := by
    simp [SetBytes]
  rw [h3] at h
  exact h

/-- A byte is zero when its eight bits are. -/
theorem byte_bits_zero (x : Nat) (hx : x < 256) :
    (∀ j : Nat, j < 8 → (x >>> (7 - j)) % 2 = 0) ↔ x = 0 := by
  constructor
  · intro h
    have h0 := h 0 (by omega)
    have h1 := h 1 (by omega)
    have h2 := h 2 (by omega)
    have h3 := h 3 (by omega)
    have h4 := h 4 (by omega)
    have h5 := h 5 (by omega)
    have h6 := h 6 (by omega)
    have h7 := h 7 (by omega)
    simp only [Nat.shiftRight_eq_div_pow] at h0 h1 h2 h3 h4 h5 h6 h7
    norm_num at h0 h1 h2 h3 h4 h5 h6 h7
    omega
  · intro h j _
    subst h
    simp

/-- A byte is below 16 when its four high bits are zero. -/
theorem byte_high_bits_zero (x : Nat) (hx : x < 256) :
    (∀ j : Nat, j < 4 → (x >>> (7 - j)) % 2 = 0) ↔ x < 16 := by
  constructor
  · intro h
    have h0 := h 0 (by omega)
    have h1 := h 1 (by omega)
    have h2 := h 2 (by omega)
    have h3 := h 3 (by omega)
    simp only [Nat.shiftRight_eq_div_pow] at h0 h1 h2 h3
    norm_num at h0 h1 h2 h3
    omega
  · intro h j hj
    have hj4 : j = 0 ∨ j = 1 ∨ j = 2 ∨ j = 3 := by omega
    rcases hj4 with e | e | e | e <;> subst e <;>
      simp only [Nat.shiftRight_eq_div_pow] <;> norm_num <;> omega

theorem digestBit_at (d : Bytes) (q j : Nat) (hj : j < 8) :
    digestBit d (8 * q + j) = (byteAt d q >>> (7 - j)) % 2 := by
  unfold digestBit
  have e1 : (8 * q + j) / 8 = q := by omega
  have e2 : (8 * q + j) % 8 = j := by omega
  rw [e1, e2]

/-- The first 20 bits of a byte slice are zero when its first two bytes are zero and the
third is below 16. -/
theorem digestBit_twenty (d : Bytes) :
    (∀ i : Nat, i < 20 → digestBit d i = 0) ↔
      byteAt d 0 = 0 ∧ byteAt d 1 = 0 ∧ byteAt d 2 < 16 := by
  have hb : ∀ q, byteAt d q < 256 := fun q => (d.getD q 0).isLt
  constructor
  · intro h
    refine ⟨(byte_bits_zero _ (hb 0)).mp ?_, (byte_bits_zero _ (hb 1)).mp ?_,
      (byte_high_bits_zero _ (hb 2)).mp ?_⟩
    · intro j hj
      rw [← digestBit_at d 0 j hj]
      exact h _ (by omega)
    · intro j hj
      rw [← digestBit_at d 1 j hj]
      exact h _ (by omega)
    · intro j hj
      rw [← digestBit_at d 2 j (by omega)]
      exact h _ (by omega)
  · rintro ⟨h0, h1, h2⟩ i hi
    have e : i = 8 * (i / 8) + i % 8 := by omega
    have hm : i % 8 < 8 := by omega
    rw [e, digestBit_at d (i / 8) (i % 8) hm]
    have hq : i / 8 = 0 ∨ i / 8 = 1 ∨ i / 8 = 2 := by omega
    rcases hq with q | q | q
    · rw [q, h0]; simp
    · rw [q, h1]; simp
    · rw [q]
      exact (byte_high_bits_zero _ (hb 2)).mpr h2 (i % 8) (by omega)

/-- The first 8 bits of a byte slice are zero when its first byte is zero. -/
theorem digestBit_eight (d : Bytes) :
    (∀ i : Nat, i < 8 → digestBit d i = 0) ↔ byteAt d 0 = 0 := by
  have hb : byteAt d 0 < 256 := (d.getD 0 0).isLt
  rw [← byte_bits_zero _ hb]
  constructor
  · intro h j hj
    rw [← digestBit_at d 0 j hj]
    exact h _ (by omega)
  · intro h i hi
    have := h i hi
    rw [← digestBit_at d 0 i hi] at this
    simpa using this

/-- A 32-byte digest is below `2^236` when its first two bytes are zero and the third is
below 16, and below `2^248` when its first byte is zero. -/
theorem digest_below_target (d : Array32) :
    (SetBytes d.val < 2 ^ 236 ↔ byteAt d.val 0 = 0 ∧ byteAt d.val 1 = 0 ∧ byteAt d.val 2 < 16) ∧
    (SetBytes d.val < 2 ^ 248 ↔ byteAt d.val 0 = 0) := by
  obtain ⟨l, hl⟩ := d
  rcases l with _ | ⟨x0, _ | ⟨x1, _ | ⟨x2, rest⟩⟩⟩
  · simp at hl
  · simp at hl
  · simp at hl
  · have hrest : rest.length = 29 := by
      simp only [List.length_cons] at hl; omega
    have hr := SetBytes_lt rest
    have hv := SetBytes_three x0 x1 x2 rest
    rw [hrest] at hr hv
    have h0 := x0.isLt
    have h1 := x1.isLt
    have h2 := x2.isLt
    have e0 : byteAt (x0 :: x1 :: x2 :: rest) 0 = x0.val := rfl
    have e1 : byteAt (x0 :: x1 :: x2 :: rest) 1 = x1.val := rfl
    have e2 : byteAt (x0 :: x1 :: x2 :: rest) 2 = x2.val := rfl
    show (SetBytes (x0 :: x1 :: x2 :: rest) < 2 ^ 236 ↔ _) ∧
      (SetBytes (x0 :: x1 :: x2 :: rest) < 2 ^ 248 ↔ _)
    rw [e0, e1, e2, hv]
    norm_num at hr ⊢
    constructor <;> constructor <;> intro h <;> omega

/-- C15: a 32-byte digest, read as a big-endian unsigned integer, is strictly below the
target of `NewProofOfWork` exactly when its `targetBit` most significant bits are zero: for
`block.go` (20 bits) bytes 0 and 1 are zero and byte 2 is below 16, for `htmldemo.go`
(8 bits) byte 0 is zero. -/
theorem difficulty_bits_are_leading_zeros (d : Array32) (b : Block) :
    (SetBytes d.val < (block.NewProofOfWork b).target ↔
      ∀ i : Nat, i < block.targetBit → digestBit d.val i = 0) ∧
    (SetBytes d.val < (block.NewProofOfWork b).target ↔
      byteAt d.val 0 = 0 ∧ byteAt d.val 1 = 0 ∧ byteAt d.val 2 < 16) ∧
    (SetBytes d.val < (htmldemo.NewProofOfWork b).target ↔
      ∀ i : Nat, i < htmldemo.targetBit → digestBit d.val i = 0) ∧
    (SetBytes d.val < (htmldemo.NewProofOfWork b).target ↔ byteAt d.val 0 = 0) := by
  rw [block_target, htmldemo_target]
  have h := digest_below_target d
  refine ⟨?_, h.1, ?_, h.2⟩
  · rw [h.1]; exact (digestBit_twenty d.val).symm
  · rw [h.2]; exact (digestBit_eight d.val).symm

/-- C15, on digests: the digest `00 00 00 25 .. 25` that `markSum256 3` gives for the
winning nonce of `sampleBlock` has 20 leading zero bits; the digest `00 00 10 00 .. 00` of
`targetSum256`, whose third byte is 16, is not below the target. -/
theorem difficulty_bits_are_leading_zeros_witness :
    (∀ i : Nat, i < block.targetBit →
      digestBit (markSum256 3
        (block.prepareData (block.NewProofOfWork sampleBlock) 3)).val i = 0) ∧
    ¬ SetBytes (targetSum256 []).val < (block.NewProofOfWork sampleBlock).target :=
  ⟨(difficulty_bits_are_leading_zeros
      (markSum256 3 (block.prepareData (block.NewProofOfWork sampleBlock) 3)) sampleBlock).1.mp
      (by decide),
   fun h => absurd
     ((difficulty_bits_are_leading_zeros (targetSum256 []) sampleBlock).2.1.mp h).2.2
     (by decide)⟩

end PowChain
